import Mathlib

/-!
Shallow embedding of the regex-to-NFA compiler from `src/nfa/mod.rs` of the
`regex-matcher` repository, together with proofs checking the natural-language
specification against it.

Conventions of the embedding:
* Rust `usize` values are modelled as `Nat`; `usize::max_value()` is the
  constant `usizeMax = 2^64 - 1`.
* Possibly-failing or possibly-diverging Rust computations are modelled with
  the three-valued result type `Res`: `ok v` for normal return, `panicked`
  for a Rust panic (failed `unwrap`, out-of-bounds indexing, explicit
  `panic!`), and `fuelOut` for exhaustion of the explicit recursion fuel.
  A Rust computation diverges exactly when the fueled model returns
  `fuelOut` for every fuel value.
* The `Expr` syntax-tree type is declared outside `src/` (in the `expr`
  crate); its constructors are reproduced exactly as `build_expr` pattern
  matches on them.
-/

namespace RegexNfa

/-- Three-valued result of a modelled Rust computation. -/
inductive Res (α : Type) : Type where
  | ok (v : α) : Res α
  | panicked : Res α
  | fuelOut : Res α
deriving DecidableEq, Repr

namespace Res

def bind {α β : Type} : Res α → (α → Res β) → Res β
  | ok v, f => f v
  | panicked, _ => panicked
  | fuelOut, _ => fuelOut

def map {α β : Type} (f : α → β) : Res α → Res β
  | ok v => ok (f v)
  | panicked => panicked
  | fuelOut => fuelOut

end Res

/-- Maximum value of a 64-bit `usize`, the result of `usize::max_value()`. -/
def usizeMax : Nat := 2 ^ 64 - 1

/-- Rust enum `ConditionChar` from `src/nfa/mod.rs` (bytes as `Nat`). -/
inductive ConditionChar : Type where
  | One (c : Nat) : ConditionChar
  | Class (cs : List Nat) : ConditionChar
  | Any : ConditionChar
  | None : ConditionChar
deriving DecidableEq, Repr

/-- Model of `ConditionChar::to_ascii`: `char::encode_utf8` into a one-byte
buffer returns `Some(1)` exactly when the character is a single UTF-8 byte
(code point below 128); otherwise the function panics. -/
def to_ascii (c : Char) : Res Nat :=
  if c.toNat < 128 then Res.ok c.toNat else Res.panicked

/-- Model of `ConditionChar::one` (may panic through `to_ascii`). -/
def ConditionChar.one (c : Char) : Res ConditionChar :=
  (to_ascii c).map ConditionChar.One

/-- Model of the `chars.iter().map(|&c| Self::to_ascii(c)).collect()` loop in
`ConditionChar::class`: the first non-single-byte character panics. -/
def mapToAscii : List Char → Res (List Nat)
  | [] => Res.ok []
  | c :: cs => (to_ascii c).bind fun b => (mapToAscii cs).map fun bs => b :: bs

/-- Model of `ConditionChar::class`. -/
def ConditionChar.class (chars : List Char) : Res ConditionChar :=
  (mapToAscii chars).map ConditionChar.Class

/-- Rust enum `Edge` from `src/nfa/mod.rs`. -/
inductive Edge : Type where
  | Id (i : Nat) : Edge
  | Detached : Edge
  | End : Edge
deriving DecidableEq, Repr

/-- Rust enum `State` from `src/nfa/mod.rs`. -/
inductive State : Type where
  | State (condition : ConditionChar) (out : Edge) : State
  | Split (out1 : Edge) (out2 : Edge) : State
deriving DecidableEq, Repr

/-- Rust struct `NFA` from `src/nfa/mod.rs`. -/
structure NFA : Type where
  start : Nat
  states : List State
deriving DecidableEq, Repr

/-- Model of `NFA::new`. -/
def NFA.new : NFA := { start := 0, states := [] }

/-- Model of `NFA::from_states`. -/
def NFA.from_states (states : List State) : NFA := { start := 0, states := states }

/-- Model of `NFA::get_start`. -/
def NFA.get_start (nfa : NFA) : Option State :=
  if nfa.states.length ≤ nfa.start then Option.none
  else nfa.states.get? nfa.start

/-- Model of `NFA::get_state`. -/
def NFA.get_state (nfa : NFA) (index : Nat) : Option State :=
  if nfa.states.length ≤ index then Option.none
  else nfa.states.get? index

/-- Model of `NFA::num_states`. -/
def NFA.num_states (nfa : NFA) : Nat := nfa.states.length

/-- Strict left-to-right `cmp::min` over modelled results: the first
argument's panic or divergence happens before the second is examined. -/
def resMin : Res Nat → Res Nat → Res Nat
  | Res.ok a, Res.ok b => Res.ok (min a b)
  | Res.ok _, Res.panicked => Res.panicked
  | Res.ok _, Res.fuelOut => Res.fuelOut
  | Res.panicked, _ => Res.panicked
  | Res.fuelOut, _ => Res.fuelOut

/-- Fueled model of `State::get_transition_priority_key`.  The recursive case
(`None` condition over a `Linked` edge) fetches the target state and computes
its priority; the mutual call to `get_priority_key` is inlined so the
recursion is structural on the fuel.  A failed `unwrap` of `get_state`
is a panic. -/
def get_transition_priority_keyF (nfa : NFA) : Nat → ConditionChar → Edge → Res Nat
  | _, ConditionChar.One c, _ => Res.ok c
  | _, ConditionChar.Any, _ => Res.ok 0
  | _, ConditionChar.Class _, _ => Res.ok 0
  | f, ConditionChar.None, Edge.Id id =>
    match f with
    | 0 => Res.fuelOut
    | Nat.succ f =>
      match nfa.get_state id with
      | Option.some (State.State condition out) =>
          get_transition_priority_keyF nfa f condition out
      | Option.some (State.Split out1 out2) =>
          resMin (get_transition_priority_keyF nfa f ConditionChar.None out1)
                 (get_transition_priority_keyF nfa f ConditionChar.None out2)
      | Option.none => Res.panicked
  | _, ConditionChar.None, Edge.Detached => Res.ok usizeMax
  | _, ConditionChar.None, Edge.End => Res.ok usizeMax

/-- Fueled model of `State::get_priority_key`. -/
def get_priority_keyF (nfa : NFA) (f : Nat) : State → Res Nat
  | State.State condition out => get_transition_priority_keyF nfa f condition out
  | State.Split out1 out2 =>
      resMin (get_transition_priority_keyF nfa f ConditionChar.None out1)
             (get_transition_priority_keyF nfa f ConditionChar.None out2)

/-- The regex syntax tree.  The `Expr` enum is declared in the external
`expr` crate; its constructors are reproduced here exactly as
`NFA::build_expr` pattern matches on them (`Any`, `Single(char)`,
`Class(Vec<char>)`, `Sequence`, `Optional`, `OneOrMore`, `ZeroOrMore`,
`Or`). -/
inductive Expr : Type where
  | Any : Expr
  | Single (c : Char) : Expr
  | Class (chars : List Char) : Expr
  | Sequence (a b : Expr) : Expr
  | Optional (e : Expr) : Expr
  | OneOrMore (e : Expr) : Expr
  | ZeroOrMore (e : Expr) : Expr
  | Or (a b : Expr) : Expr
deriving DecidableEq, Repr

/-- Fueled model of `NFA::update_outputs_rec` with the body of the helper
`replace_edge` inlined for each examined edge, so that the recursion is
structural on the fuel.  The arena is threaded through explicitly; the
visited list is threaded exactly as the Rust `&mut Vec<usize>`.
Reading `self.states[start_id]` out of range is a panic. -/
def update_outputs_rec : Nat → List State → Nat → List Nat → Edge → Res (List State × List Nat)
  | 0, _, _, _, _ => Res.fuelOut
  | Nat.succ f, states, start_id, visited, new_edge =>
    match states.get? start_id with
    | Option.some (State.State condition out) =>
      (match out with
       | Edge.Detached => Res.ok (new_edge, states, visited)
       | Edge.Id id =>
         if visited.contains id then Res.ok (Edge.Id id, states, visited)
         else
           match update_outputs_rec f states id (visited ++ [id]) new_edge with
           | Res.ok (st2, v2) => Res.ok (Edge.Id id, st2, v2)
           | Res.panicked => Res.panicked
           | Res.fuelOut => Res.fuelOut
       | Edge.End => Res.ok (Edge.End, states, visited)).bind
        fun r => Res.ok ((r.2.1).set start_id (State.State condition r.1), r.2.2)
    | Option.some (State.Split out1 out2) =>
      (match out1 with
       | Edge.Detached => Res.ok (new_edge, states, visited)
       | Edge.Id id =>
         if visited.contains id then Res.ok (Edge.Id id, states, visited)
         else
           match update_outputs_rec f states id (visited ++ [id]) new_edge with
           | Res.ok (st2, v2) => Res.ok (Edge.Id id, st2, v2)
           | Res.panicked => Res.panicked
           | Res.fuelOut => Res.fuelOut
       | Edge.End => Res.ok (Edge.End, states, visited)).bind
        fun r1 =>
          (match out2 with
           | Edge.Detached => Res.ok (new_edge, r1.2.1, r1.2.2)
           | Edge.Id id =>
             if (r1.2.2).contains id then Res.ok (Edge.Id id, r1.2.1, r1.2.2)
             else
               match update_outputs_rec f (r1.2.1) id ((r1.2.2) ++ [id]) new_edge with
               | Res.ok (st2, v2) => Res.ok (Edge.Id id, st2, v2)
               | Res.panicked => Res.panicked
               | Res.fuelOut => Res.fuelOut
           | Edge.End => Res.ok (Edge.End, r1.2.1, r1.2.2)).bind
            fun r2 => Res.ok ((r2.2.1).set start_id (State.Split r1.1 r2.1), r2.2.2)
    | Option.none => Res.panicked

/-- Model of `NFA::replace_edge` (non-recursive wrapper; the fuel is the fuel
of the inner `update_outputs_rec` call). -/
def replace_edge (f : Nat) (states : List State) (edge : Edge) (replacement : Edge)
    (visited : List Nat) : Res (Edge × List State × List Nat) :=
  match edge with
  | Edge.Detached => Res.ok (replacement, states, visited)
  | Edge.Id id =>
    if visited.contains id then Res.ok (Edge.Id id, states, visited)
    else
      match update_outputs_rec f states id (visited ++ [id]) replacement with
      | Res.ok (st2, v2) => Res.ok (Edge.Id id, st2, v2)
      | Res.panicked => Res.panicked
      | Res.fuelOut => Res.fuelOut
  | Edge.End => Res.ok (Edge.End, states, visited)

/-- Model of `NFA::update_outputs`: one patching pass with the visited list
seeded with the entry index.  The canonical fuel `states.length + 2` is
proved sufficient below (`update_outputs_rec_fuel` machinery): the visited
list only ever receives distinct in-range indices, so the recursion depth of
a non-panicking pass is bounded by the arena size. -/
def update_outputs (states : List State) (start_id : Nat) (new_edge : Edge) :
    Res (List State) :=
  (update_outputs_rec (states.length + 2) states start_id [start_id] new_edge).map
    fun r => r.1

/-- Model of `NFA::build_expr`: the arena is threaded explicitly, the result
is the fragment's entry index together with the updated arena. -/
def build_expr : List State → Expr → Res (Nat × List State)
  | states, Expr.Any =>
      let sts := states ++ [State.State ConditionChar.Any Edge.Detached]
      Res.ok (sts.length - 1, sts)
  | states, Expr.Single c =>
      (ConditionChar.one c).bind fun cond =>
        let sts := states ++ [State.State cond Edge.Detached]
        Res.ok (sts.length - 1, sts)
  | states, Expr.Class chars =>
      (ConditionChar.class chars).bind fun cond =>
        let sts := states ++ [State.State cond Edge.Detached]
        Res.ok (sts.length - 1, sts)
  | states, Expr.Sequence a b =>
      (build_expr states a).bind fun ra =>
      (build_expr ra.2 b).bind fun rb =>
      (update_outputs rb.2 ra.1 (Edge.Id rb.1)).bind fun st3 =>
      Res.ok (ra.1, st3)
  | states, Expr.Optional e =>
      (build_expr states e).bind fun re =>
        let sts := re.2 ++ [State.Split (Edge.Id re.1) Edge.Detached]
        Res.ok (sts.length - 1, sts)
  | states, Expr.OneOrMore e =>
      (build_expr states e).bind fun re =>
        let sts := re.2 ++ [State.Split (Edge.Id re.1) Edge.Detached]
        let split_id := sts.length - 1
        (update_outputs sts re.1 (Edge.Id split_id)).bind fun st3 =>
        Res.ok (re.1, st3)
  | states, Expr.ZeroOrMore e =>
      (build_expr states e).bind fun re =>
        let sts := re.2 ++ [State.Split (Edge.Id re.1) Edge.Detached]
        let split_id := sts.length - 1
        (update_outputs sts re.1 (Edge.Id split_id)).bind fun st3 =>
        Res.ok (split_id, st3)
  | states, Expr.Or a b =>
      (build_expr states a).bind fun ra =>
      (build_expr ra.2 b).bind fun rb =>
        let sts := rb.2 ++ [State.Split (Edge.Id ra.1) (Edge.Id rb.1)]
        Res.ok (sts.length - 1, sts)

/-- Model of `NFA::from_expr`. -/
def from_expr (expr : Expr) : Res NFA :=
  (build_expr [] expr).bind fun r =>
  (update_outputs r.2 r.1 Edge.End).bind fun sts =>
  Res.ok { start := r.1, states := sts }

/-! ### Derived graph notions used in the statements -/

/-- An edge is in range of an arena of `n` states (a `Detached` or `End`
edge carries no index). -/
def edge_ok (n : Nat) : Edge → Bool
  | Edge.Id t => decide (t < n)
  | _ => true

/-- All edges of a state are in range. -/
def state_ok (n : Nat) : State → Bool
  | State.State _ out => edge_ok n out
  | State.Split o1 o2 => edge_ok n o1 && edge_ok n o2

/-- A well-formed arena: every `Linked` edge points inside the arena. -/
def arena_ok (st : List State) : Bool := st.all (state_ok st.length)

/-- Successor relation of the graph: `b` is the target of a `Linked` edge of
state `a`. -/
def stepsTo (st : List State) (a b : Nat) : Bool :=
  match st.get? a with
  | Option.some (State.State _ out) => out == Edge.Id b
  | Option.some (State.Split o1 o2) => o1 == Edge.Id b || o2 == Edge.Id b
  | Option.none => false

/-- Propositional form of `stepsTo`. -/
def Step (st : List State) (a b : Nat) : Prop := stepsTo st a b = true

instance (st : List State) (a b : Nat) : Decidable (Step st a b) :=
  inferInstanceAs (Decidable (stepsTo st a b = true))

/-- Reachability along `Linked` edges. -/
def Reach (st : List State) (a b : Nat) : Prop :=
  Relation.ReflTransGen (Step st) a b

/-- Epsilon successor relation: exactly the edges the priority recursion
follows as `None`-conditioned transitions (both successors of a `Split`, and
the successor of a `Match` whose condition is the `None` sentinel). -/
def epsStepB (st : List State) (a b : Nat) : Bool :=
  match st.get? a with
  | Option.some (State.State ConditionChar.None out) => out == Edge.Id b
  | Option.some (State.Split o1 o2) => o1 == Edge.Id b || o2 == Edge.Id b
  | _ => false

/-- Propositional form of `epsStepB`. -/
def epsStep (st : List State) (a b : Nat) : Prop := epsStepB st a b = true

instance (st : List State) (a b : Nat) : Decidable (epsStep st a b) :=
  inferInstanceAs (Decidable (epsStepB st a b = true))

/-- Replacing the `Open` placeholder in one edge. -/
def patch_edge (new_edge : Edge) : Edge → Edge
  | Edge.Detached => new_edge
  | e => e

/-- Replacing every `Open` placeholder edge of one state. -/
def patch_state (new_edge : Edge) : State → State
  | State.State c out => State.State c (patch_edge new_edge out)
  | State.Split o1 o2 => State.Split (patch_edge new_edge o1) (patch_edge new_edge o2)

/-- The state carries at least one `Open` (detached) transition. -/
def has_detached : State → Bool
  | State.State _ Edge.Detached => true
  | State.Split Edge.Detached _ => true
  | State.Split _ Edge.Detached => true
  | _ => false

/-- The state carries at least one `Accept` (`End`) transition. -/
def has_end : State → Bool
  | State.State _ Edge.End => true
  | State.Split Edge.End _ => true
  | State.Split _ Edge.End => true
  | _ => false

/-- The state's condition is not the transient `None` sentinel (real built
states never carry it). -/
def cond_ok : State → Bool
  | State.State ConditionChar.None _ => false
  | _ => true

/-! ### Basic lemmas about the helpers -/

theorem resMin_eq_ok_iff {a b : Res Nat} {v : Nat} :
    resMin a b = Res.ok v ↔ ∃ x y, a = Res.ok x ∧ b = Res.ok y ∧ v = min x y := by
  cases a <;> cases b <;> simp [resMin] <;> tauto

theorem resMin_ne_panicked {a b : Res Nat} (ha : a ≠ Res.panicked)
    (hb : b ≠ Res.panicked) : resMin a b ≠ Res.panicked := by
  cases a <;> cases b <;> simp_all [resMin]

theorem resMin_ok_ok {x y : Nat} :
    resMin (Res.ok x) (Res.ok y) = Res.ok (min x y) := rfl

theorem list_set_self {α : Type} (l : List α) (i : Nat) (x : α)
    (h : l.get? i = Option.some x) : l.set i x = l := by
  induction l generalizing i with
  | nil => cases h
  | cons a t ih =>
    cases i with
    | zero =>
      have ha : a = x := by injection h
      simp [List.set, ha]
    | succ j =>
      have h2 : t.get? j = Option.some x := h
      simp [List.set, ih j h2]

theorem get_state_eq_get? (nfa : NFA) (i : Nat) :
    nfa.get_state i = nfa.states.get? i := by
  unfold NFA.get_state
  by_cases h : nfa.states.length ≤ i
  · simp [h, List.get?_eq_none.mpr h]
  · simp [h]

theorem arena_ok_state {st : List State} (h : arena_ok st = true) {i : Nat}
    {s : State} (hs : st.get? i = Option.some s) : state_ok st.length s = true := by
  have hmem : s ∈ st := by
    have := List.get?_mem hs
    exact this
  exact List.all_eq_true.mp h s hmem

theorem edge_ok_id {n t : Nat} (h : edge_ok n (Edge.Id t) = true) : t < n := by
  simpa [edge_ok] using h

/-! ### Priority resolver: unfolding lemmas -/

theorem tpk_one (nfa : NFA) (f : Nat) (c : Nat) (o : Edge) :
    get_transition_priority_keyF nfa f (ConditionChar.One c) o = Res.ok c := by
  cases f <;> rfl

theorem tpk_any (nfa : NFA) (f : Nat) (o : Edge) :
    get_transition_priority_keyF nfa f ConditionChar.Any o = Res.ok 0 := by
  cases f <;> rfl

theorem tpk_class (nfa : NFA) (f : Nat) (cs : List Nat) (o : Edge) :
    get_transition_priority_keyF nfa f (ConditionChar.Class cs) o = Res.ok 0 := by
  cases f <;> rfl

theorem tpk_none_detached (nfa : NFA) (f : Nat) :
    get_transition_priority_keyF nfa f ConditionChar.None Edge.Detached = Res.ok usizeMax := by
  cases f <;> rfl

theorem tpk_none_end (nfa : NFA) (f : Nat) :
    get_transition_priority_keyF nfa f ConditionChar.None Edge.End = Res.ok usizeMax := by
  cases f <;> rfl

theorem tpk_none_id_zero (nfa : NFA) (id : Nat) :
    get_transition_priority_keyF nfa 0 ConditionChar.None (Edge.Id id) = Res.fuelOut := rfl

theorem tpk_none_id_succ (nfa : NFA) (f : Nat) (id : Nat) :
    get_transition_priority_keyF nfa (f + 1) ConditionChar.None (Edge.Id id) =
      (match nfa.get_state id with
       | Option.some (State.State condition out) =>
           get_transition_priority_keyF nfa f condition out
       | Option.some (State.Split out1 out2) =>
           resMin (get_transition_priority_keyF nfa f ConditionChar.None out1)
                  (get_transition_priority_keyF nfa f ConditionChar.None out2)
       | Option.none => Res.panicked) := rfl

theorem tpk_unfold_state (nfa : NFA) (f : Nat) (id : Nat) (s : State)
    (hst : nfa.get_state id = Option.some s) :
    get_transition_priority_keyF nfa (f + 1) ConditionChar.None (Edge.Id id) =
      get_priority_keyF nfa f s := by
  rw [tpk_none_id_succ, hst]
  cases s <;> rfl

theorem gpk_state (nfa : NFA) (f : Nat) (c : ConditionChar) (o : Edge) :
    get_priority_keyF nfa f (State.State c o) = get_transition_priority_keyF nfa f c o := rfl

theorem gpk_split (nfa : NFA) (f : Nat) (o1 o2 : Edge) :
    get_priority_keyF nfa f (State.Split o1 o2) =
      resMin (get_transition_priority_keyF nfa f ConditionChar.None o1)
             (get_transition_priority_keyF nfa f ConditionChar.None o2) := rfl

/-- Fuel monotonicity: once the priority recursion completes with a value,
more fuel yields the same value. -/
theorem tpk_mono (nfa : NFA) :
    ∀ f g : Nat, f ≤ g → ∀ (c : ConditionChar) (o : Edge) (v : Nat),
      get_transition_priority_keyF nfa f c o = Res.ok v →
      get_transition_priority_keyF nfa g c o = Res.ok v := by
  intro f
  induction f with
  | zero =>
    intro g _ c o v h
    cases c with
    | One c => rw [tpk_one] at h ⊢; exact h
    | Any => rw [tpk_any] at h ⊢; exact h
    | Class cs => rw [tpk_class] at h ⊢; exact h
    | None =>
      cases o with
      | Id id => rw [tpk_none_id_zero] at h; cases h
      | Detached => rw [tpk_none_detached] at h ⊢; exact h
      | End => rw [tpk_none_end] at h ⊢; exact h
  | succ f ih =>
    intro g hg c o v h
    cases c with
    | One c => rw [tpk_one] at h ⊢; exact h
    | Any => rw [tpk_any] at h ⊢; exact h
    | Class cs => rw [tpk_class] at h ⊢; exact h
    | None =>
      cases o with
      | Detached => rw [tpk_none_detached] at h ⊢; exact h
      | End => rw [tpk_none_end] at h ⊢; exact h
      | Id id =>
        cases g with
        | zero => omega
        | succ g =>
          have hfg : f ≤ g := Nat.succ_le_succ_iff.mp hg
          cases hst : nfa.get_state id with
          | none =>
            rw [tpk_none_id_succ, hst] at h
            simp at h
          | some s =>
            rw [tpk_unfold_state nfa f id s hst] at h
            rw [tpk_unfold_state nfa g id s hst]
            cases s with
            | State c2 o2 =>
              rw [gpk_state] at h ⊢
              exact ih g hfg c2 o2 v h
            | Split o1 o2 =>
              rw [gpk_split] at h ⊢
              obtain ⟨x, y, hx, hy, hv⟩ := resMin_eq_ok_iff.mp h
              rw [ih g hfg _ _ _ hx, ih g hfg _ _ _ hy, resMin_ok_ok, hv]

/-! ### Reference definition of the priority metric (C4) -/

/-- Reference resolution of a `None`-conditioned transition, written from the
specification text: `Linked(target)` resolves to the target state's own
priority; `Open` and `Accept` resolve to the maximum representable value.
The target state's priority is, per the specification: byte value for
`One(c)` regardless of successor, `0` for `Any`, `0` for `Class` regardless
of contents, resolution of its own successor for `None`, and the smaller of
the two successor resolutions for a `Branch`. -/
def refEdgeF (nfa : NFA) : Nat → Edge → Res Nat
  | f, Edge.Id target =>
    (match f with
     | 0 => Res.fuelOut
     | Nat.succ f =>
       match nfa.get_state target with
       | Option.some (State.State (ConditionChar.One c) _) => Res.ok c
       | Option.some (State.State ConditionChar.Any _) => Res.ok 0
       | Option.some (State.State (ConditionChar.Class _) _) => Res.ok 0
       | Option.some (State.State ConditionChar.None out) => refEdgeF nfa f out
       | Option.some (State.Split out1 out2) =>
           resMin (refEdgeF nfa f out1) (refEdgeF nfa f out2)
       | Option.none => Res.panicked)
  | _, Edge.Detached => Res.ok usizeMax
  | _, Edge.End => Res.ok usizeMax

/-- Reference priority of a state, written from the specification text. -/
def priorityRef (nfa : NFA) (f : Nat) : State → Res Nat
  | State.State (ConditionChar.One c) _ => Res.ok c
  | State.State ConditionChar.Any _ => Res.ok 0
  | State.State (ConditionChar.Class _) _ => Res.ok 0
  | State.State ConditionChar.None out => refEdgeF nfa f out
  | State.Split out1 out2 => resMin (refEdgeF nfa f out1) (refEdgeF nfa f out2)

theorem refEdge_detached (nfa : NFA) (f : Nat) :
    refEdgeF nfa f Edge.Detached = Res.ok usizeMax := by
  cases f <;> rfl

theorem refEdge_end (nfa : NFA) (f : Nat) :
    refEdgeF nfa f Edge.End = Res.ok usizeMax := by
  cases f <;> rfl

theorem refEdge_id_zero (nfa : NFA) (t : Nat) :
    refEdgeF nfa 0 (Edge.Id t) = Res.fuelOut := rfl

theorem refEdge_unfold_state (nfa : NFA) (f : Nat) (t : Nat) (s : State)
    (hst : nfa.get_state t = Option.some s) :
    refEdgeF nfa (f + 1) (Edge.Id t) = priorityRef nfa f s := by
  show (match nfa.get_state t with
        | Option.some (State.State (ConditionChar.One c) _) => Res.ok c
        | Option.some (State.State ConditionChar.Any _) => Res.ok 0
        | Option.some (State.State (ConditionChar.Class _) _) => Res.ok 0
        | Option.some (State.State ConditionChar.None out) => refEdgeF nfa f out
        | Option.some (State.Split out1 out2) =>
            resMin (refEdgeF nfa f out1) (refEdgeF nfa f out2)
        | Option.none => Res.panicked) = priorityRef nfa f s
  rw [hst]
  cases s with
  | State c o => cases c <;> rfl
  | Split o1 o2 => rfl

theorem refEdge_none_unfold (nfa : NFA) (f : Nat) (t : Nat)
    (hst : nfa.get_state t = Option.none) :
    refEdgeF nfa (f + 1) (Edge.Id t) = Res.panicked := by
  show (match nfa.get_state t with
        | Option.some (State.State (ConditionChar.One c) _) => Res.ok c
        | Option.some (State.State ConditionChar.Any _) => Res.ok 0
        | Option.some (State.State (ConditionChar.Class _) _) => Res.ok 0
        | Option.some (State.State ConditionChar.None out) => refEdgeF nfa f out
        | Option.some (State.Split out1 out2) =>
            resMin (refEdgeF nfa f out1) (refEdgeF nfa f out2)
        | Option.none => Res.panicked) = Res.panicked
  rw [hst]

theorem tpk_eq_refEdge (nfa : NFA) :
    ∀ (f : Nat) (o : Edge),
      get_transition_priority_keyF nfa f ConditionChar.None o = refEdgeF nfa f o := by
  intro f
  induction f with
  | zero =>
    intro o
    cases o with
    | Id id => rfl
    | Detached => rfl
    | End => rfl
  | succ f ih =>
    intro o
    cases o with
    | Detached => rfl
    | End => rfl
    | Id id =>
      cases hst : nfa.get_state id with
      | none =>
        rw [tpk_none_id_succ, hst, refEdge_none_unfold nfa f id hst]
      | some s =>
        rw [tpk_unfold_state nfa f id s hst, refEdge_unfold_state nfa f id s hst]
        cases s with
        | State c2 o2 =>
          cases c2 with
          | One c => exact tpk_one nfa f c o2
          | Any => exact tpk_any nfa f o2
          | Class cs => exact tpk_class nfa f cs o2
          | None => exact ih o2
        | Split o1 o2 =>
          rw [gpk_split, ih o1, ih o2]; rfl

theorem gpk_eq_priorityRef (nfa : NFA) (f : Nat) (s : State) :
    get_priority_keyF nfa f s = priorityRef nfa f s := by
  cases s with
  | State c o =>
    cases c with
    | One c => exact tpk_one nfa f c o
    | Any => exact tpk_any nfa f o
    | Class cs => exact tpk_class nfa f cs o
    | None => exact tpk_eq_refEdge nfa f o
  | Split o1 o2 =>
    rw [gpk_split, tpk_eq_refEdge nfa f o1, tpk_eq_refEdge nfa f o2]; rfl

/-! ### Priority resolver: panic analysis and termination -/

/-- Safety precondition of the claim: every index the `None`-conditioned
resolution of this edge can encounter (the edge's own target and all its
epsilon descendants) is in range of the arena. -/
def edge_safe (nfa : NFA) (o : Edge) : Prop :=
  ∀ id, o = Edge.Id id →
    ∀ j, Relation.ReflTransGen (epsStep nfa.states) id j → j < nfa.num_states

theorem get_state_some_of_get? {nfa : NFA} {i : Nat} {s : State}
    (h : nfa.states.get? i = Option.some s) : nfa.get_state i = Option.some s := by
  rw [get_state_eq_get?]; exact h

theorem exists_get?_of_lt {nfa : NFA} {i : Nat} (h : i < nfa.states.length) :
    ∃ s, nfa.states.get? i = Option.some s :=
  ⟨nfa.states.get ⟨i, h⟩, List.get?_eq_get h⟩

theorem epsStep_match_none {st : List State} {a b : Nat} {o : Edge}
    (hst : st.get? a = Option.some (State.State ConditionChar.None o))
    (ho : o = Edge.Id b) : epsStep st a b := by
  unfold epsStep epsStepB
  rw [hst, ho]
  simp

theorem epsStep_split_left {st : List State} {a b : Nat} {o1 o2 : Edge}
    (hst : st.get? a = Option.some (State.Split o1 o2))
    (ho : o1 = Edge.Id b) : epsStep st a b := by
  unfold epsStep epsStepB
  rw [hst, ho]
  simp

theorem epsStep_split_right {st : List State} {a b : Nat} {o1 o2 : Edge}
    (hst : st.get? a = Option.some (State.Split o1 o2))
    (ho : o2 = Edge.Id b) : epsStep st a b := by
  unfold epsStep epsStepB
  rw [hst, ho]
  simp

/-- Under the claim's reachability precondition, the priority recursion on a
`None`-conditioned transition never takes the panicking `unwrap` branch. -/
theorem tpk_no_panic (nfa : NFA) :
    ∀ (f : Nat) (o : Edge), edge_safe nfa o →
      get_transition_priority_keyF nfa f ConditionChar.None o ≠ Res.panicked := by
  intro f
  induction f with
  | zero =>
    intro o _
    cases o with
    | Id id => rw [tpk_none_id_zero]; simp
    | Detached => rw [tpk_none_detached]; simp
    | End => rw [tpk_none_end]; simp
  | succ f ih =>
    intro o hs
    cases o with
    | Detached => rw [tpk_none_detached]; simp
    | End => rw [tpk_none_end]; simp
    | Id id =>
      have hid : id < nfa.num_states := hs id rfl id Relation.ReflTransGen.refl
      obtain ⟨s, hgs⟩ := exists_get?_of_lt hid
      have hstx := get_state_some_of_get? hgs
      rw [tpk_unfold_state nfa f id s hstx]
      cases s with
      | State c2 o2 =>
        rw [gpk_state]
        cases c2 with
        | One c => rw [tpk_one]; simp
        | Any => rw [tpk_any]; simp
        | Class cs => rw [tpk_class]; simp
        | None =>
          refine ih o2 ?_
          intro j hj k hk
          refine hs id rfl k ?_
          exact Relation.ReflTransGen.head (epsStep_match_none hgs hj) hk
      | Split o1 o2 =>
        rw [gpk_split]
        refine resMin_ne_panicked (ih o1 ?_) (ih o2 ?_)
        · intro j hj k hk
          exact hs id rfl k (Relation.ReflTransGen.head (epsStep_split_left hgs hj) hk)
        · intro j hj k hk
          exact hs id rfl k (Relation.ReflTransGen.head (epsStep_split_right hgs hj) hk)

/-- A transition whose condition is a real one (`One`, `Any`, `Class`) never
panics: its priority is immediate. -/
theorem tpk_real_condition_no_panic (nfa : NFA) (f : Nat) (c : ConditionChar)
    (o : Edge) (hc : c ≠ ConditionChar.None) :
    get_transition_priority_keyF nfa f c o ≠ Res.panicked := by
  cases c with
  | One c => rw [tpk_one]; simp
  | Any => rw [tpk_any]; simp
  | Class cs => rw [tpk_class]; simp
  | None => exact absurd rfl hc

/-- Key termination lemma: on an arena with in-range edges and no cycle in
the epsilon-step relation, the priority resolution of every in-range
`Linked` edge completes with a value for some fuel. -/
theorem tpk_node_terminates (nfa : NFA) (hok : arena_ok nfa.states = true)
    (hacyc : ∀ a, ¬ Relation.TransGen (epsStep nfa.states) a a) :
    ∀ id, id < nfa.states.length →
      ∃ f v, get_transition_priority_keyF nfa f ConditionChar.None (Edge.Id id) = Res.ok v := by
  have hirr : ∀ a : Fin nfa.states.length,
      ¬ Relation.TransGen (fun y x : Fin nfa.states.length =>
          epsStep nfa.states x.val y.val) a a := by
    intro a ha
    have h1 : Relation.TransGen (fun u v : Nat => epsStep nfa.states v u) a.val a.val :=
      Relation.TransGen.lift Fin.val (fun _ _ hxy => hxy) ha
    exact hacyc a.val (Relation.TransGen.swap h1)
  have wf : WellFounded (fun y x : Fin nfa.states.length =>
      epsStep nfa.states x.val y.val) := by
    have hi : IsIrrefl (Fin nfa.states.length)
        (Relation.TransGen (fun y x : Fin nfa.states.length =>
          epsStep nfa.states x.val y.val)) := ⟨hirr⟩
    have ht : IsTrans (Fin nfa.states.length)
        (Relation.TransGen (fun y x : Fin nfa.states.length =>
          epsStep nfa.states x.val y.val)) := inferInstance
    have wf0 : WellFounded (Relation.TransGen (fun y x : Fin nfa.states.length =>
        epsStep nfa.states x.val y.val)) :=
      Finite.wellFounded_of_trans_of_irrefl _
    exact @Subrelation.wf (Fin nfa.states.length)
      (Relation.TransGen (fun y x : Fin nfa.states.length =>
        epsStep nfa.states x.val y.val))
      (fun y x : Fin nfa.states.length => epsStep nfa.states x.val y.val)
      (fun hab => Relation.TransGen.single hab) wf0
  intro id hid
  refine @WellFounded.induction (Fin nfa.states.length) _ wf
    (fun x => ∃ f v,
      get_transition_priority_keyF nfa f ConditionChar.None (Edge.Id x.val) = Res.ok v)
    ⟨id, hid⟩ ?_
  intro x ihx
  obtain ⟨s, hgs⟩ := exists_get?_of_lt x.isLt
  have hstx := get_state_some_of_get? hgs
  have hsok : state_ok nfa.states.length s = true := arena_ok_state hok hgs
  cases s with
  | State c o =>
    cases c with
    | One c =>
      exact ⟨1, c, by rw [tpk_unfold_state nfa 0 x.val _ hstx, gpk_state, tpk_one]⟩
    | Any =>
      exact ⟨1, 0, by rw [tpk_unfold_state nfa 0 x.val _ hstx, gpk_state, tpk_any]⟩
    | Class cs =>
      exact ⟨1, 0, by rw [tpk_unfold_state nfa 0 x.val _ hstx, gpk_state, tpk_class]⟩
    | None =>
      cases o with
      | Id j =>
        have hj : j < nfa.states.length := edge_ok_id (by simpa [state_ok] using hsok)
        obtain ⟨f, v, hf⟩ := ihx ⟨j, hj⟩ (epsStep_match_none hgs rfl)
        exact ⟨f + 1, v, by rw [tpk_unfold_state nfa f x.val _ hstx, gpk_state]; exact hf⟩
      | Detached =>
        exact ⟨1, usizeMax, by
          rw [tpk_unfold_state nfa 0 x.val _ hstx, gpk_state, tpk_none_detached]⟩
      | End =>
        exact ⟨1, usizeMax, by
          rw [tpk_unfold_state nfa 0 x.val _ hstx, gpk_state, tpk_none_end]⟩
  | Split o1 o2 =>
    have hsok1 : edge_ok nfa.states.length o1 = true := by
      have := hsok; simp [state_ok] at this; exact this.1
    have hsok2 : edge_ok nfa.states.length o2 = true := by
      have := hsok; simp [state_ok] at this; exact this.2
    have h1 : ∃ f v, ∀ g, f ≤ g →
        get_transition_priority_keyF nfa g ConditionChar.None o1 = Res.ok v := by
      cases o1 with
      | Id j =>
        have hj : j < nfa.states.length := edge_ok_id hsok1
        obtain ⟨f, v, hf⟩ := ihx ⟨j, hj⟩ (epsStep_split_left hgs rfl)
        exact ⟨f, v, fun g hg => tpk_mono nfa f g hg _ _ _ hf⟩
      | Detached => exact ⟨0, usizeMax, fun g _ => tpk_none_detached nfa g⟩
      | End => exact ⟨0, usizeMax, fun g _ => tpk_none_end nfa g⟩
    have h2 : ∃ f v, ∀ g, f ≤ g →
        get_transition_priority_keyF nfa g ConditionChar.None o2 = Res.ok v := by
      cases o2 with
      | Id j =>
        have hj : j < nfa.states.length := edge_ok_id hsok2
        obtain ⟨f, v, hf⟩ := ihx ⟨j, hj⟩ (epsStep_split_right hgs rfl)
        exact ⟨f, v, fun g hg => tpk_mono nfa f g hg _ _ _ hf⟩
      | Detached => exact ⟨0, usizeMax, fun g _ => tpk_none_detached nfa g⟩
      | End => exact ⟨0, usizeMax, fun g _ => tpk_none_end nfa g⟩
    obtain ⟨f1, v1, H1⟩ := h1
    obtain ⟨f2, v2, H2⟩ := h2
    refine ⟨max f1 f2 + 1, min v1 v2, ?_⟩
    rw [tpk_unfold_state nfa (max f1 f2) x.val _ hstx, gpk_split,
      H1 _ (Nat.le_max_left f1 f2), H2 _ (Nat.le_max_right f1 f2), resMin_ok_ok]

/-- Per-edge form of the termination lemma (with fuel monotone closure). -/
theorem tpk_edge_terminates (nfa : NFA) (hok : arena_ok nfa.states = true)
    (hacyc : ∀ a, ¬ Relation.TransGen (epsStep nfa.states) a a)
    (o : Edge) (ho : edge_ok nfa.states.length o = true) :
    ∃ f v, ∀ g, f ≤ g →
      get_transition_priority_keyF nfa g ConditionChar.None o = Res.ok v := by
  cases o with
  | Id j =>
    obtain ⟨f, v, hf⟩ := tpk_node_terminates nfa hok hacyc j (edge_ok_id ho)
    exact ⟨f, v, fun g hg => tpk_mono nfa f g hg _ _ _ hf⟩
  | Detached => exact ⟨0, usizeMax, fun g _ => tpk_none_detached nfa g⟩
  | End => exact ⟨0, usizeMax, fun g _ => tpk_none_end nfa g⟩

/-- Termination of `get_priority_key` on every state of an arena with
in-range edges and an acyclic epsilon-step relation. -/
theorem priority_terminates (nfa : NFA) (hok : arena_ok nfa.states = true)
    (hacyc : ∀ a, ¬ Relation.TransGen (epsStep nfa.states) a a) :
    ∀ s, s ∈ nfa.states → ∃ f v, get_priority_keyF nfa f s = Res.ok v := by
  intro s hmem
  have hsok : state_ok nfa.states.length s = true :=
    List.all_eq_true.mp hok s hmem
  cases s with
  | State c o =>
    cases c with
    | One c => exact ⟨0, c, tpk_one nfa 0 c o⟩
    | Any => exact ⟨0, 0, tpk_any nfa 0 o⟩
    | Class cs => exact ⟨0, 0, tpk_class nfa 0 cs o⟩
    | None =>
      obtain ⟨f, v, hf⟩ := tpk_edge_terminates nfa hok hacyc o
        (by simpa [state_ok] using hsok)
      exact ⟨f, v, hf f (Nat.le_refl f)⟩
  | Split o1 o2 =>
    have hsok1 : edge_ok nfa.states.length o1 = true := by
      have := hsok; simp [state_ok] at this; exact this.1
    have hsok2 : edge_ok nfa.states.length o2 = true := by
      have := hsok; simp [state_ok] at this; exact this.2
    obtain ⟨f1, v1, H1⟩ := tpk_edge_terminates nfa hok hacyc o1 hsok1
    obtain ⟨f2, v2, H2⟩ := tpk_edge_terminates nfa hok hacyc o2 hsok2
    refine ⟨max f1 f2, min v1 v2, ?_⟩
    rw [gpk_split, H1 _ (Nat.le_max_left f1 f2), H2 _ (Nat.le_max_right f1 f2),
      resMin_ok_ok]

/-! ### Edge patcher: auxiliary notions -/

/-- One step of the graph that additionally avoids the visited list. -/
def avoidStep (st : List State) (V : List Nat) (a b : Nat) : Prop :=
  Step st a b ∧ ¬ b ∈ V

/-- Number of in-range indices not yet visited: the decreasing measure of the
patching pass. -/
def unvis (n : Nat) (V : List Nat) : Nat :=
  ((List.range n).filter (fun k => !(V.contains k))).length

theorem contains_iff (V : List Nat) (k : Nat) : V.contains k = true ↔ k ∈ V := by
  simp [List.contains]

theorem not_contains_iff (V : List Nat) (k : Nat) :
    (!(V.contains k)) = true ↔ ¬ k ∈ V := by
  simp [List.contains]

theorem filter_length_mono {α : Type} (l : List α) (p q : α → Bool)
    (h : ∀ a, a ∈ l → p a = true → q a = true) :
    (l.filter p).length ≤ (l.filter q).length := by
  induction l with
  | nil => simp
  | cons a t ih =>
    have ht : ∀ b, b ∈ t → p b = true → q b = true :=
      fun b hb => h b (List.mem_cons_of_mem a hb)
    by_cases hp : p a = true
    · have hq := h a (List.mem_cons_self a t) hp
      simp [List.filter, hp, hq]
      exact ih ht
    · have hp2 : p a = false := by revert hp; cases p a <;> simp
      by_cases hq : q a = true
      · simp [List.filter, hp2, hq]
        exact Nat.le_succ_of_le (ih ht)
      · have hq2 : q a = false := by revert hq; cases q a <;> simp
        simp [List.filter, hp2, hq2]
        exact ih ht

theorem unvis_le (n : Nat) (V : List Nat) : unvis n V ≤ n := by
  calc ((List.range n).filter (fun k => !(V.contains k))).length
      ≤ (List.range n).length := List.length_filter_le _ _
    _ = n := List.length_range n

theorem unvis_append_mono (n : Nat) (V L : List Nat) :
    unvis n (V ++ L) ≤ unvis n V := by
  refine filter_length_mono _ _ _ ?_
  intro a _ ha
  rw [not_contains_iff] at ha ⊢
  intro hmem
  exact ha (List.mem_append_left L hmem)

theorem filter_and_ne_length (l : List Nat) (hl : l.Nodup) (p : Nat → Bool)
    (j : Nat) (hj : j ∈ l) (hpj : p j = true) :
    (l.filter (fun k => p k && (k != j))).length + 1 = (l.filter p).length := by
  induction l with
  | nil => cases hj
  | cons a t ih =>
    have hnd : t.Nodup := (List.nodup_cons.mp hl).2
    by_cases haj : a = j
    · subst haj
      have hat : a ∉ t := (List.nodup_cons.mp hl).1
      have heq : t.filter (fun k => p k && (k != a)) = t.filter p := by
        refine List.filter_congr ?_
        intro k hk
        have : k ≠ a := fun h => hat (h ▸ hk)
        simp [this]
      simp [List.filter, hpj, heq]
    · have hjt : j ∈ t := by
        cases List.mem_cons.mp hj with
        | inl h => exact absurd h.symm haj
        | inr h => exact h
      have hne : (a != j) = true := by simp [haj]
      by_cases hpa : p a = true
      · simp [List.filter, hpa, hne]
        exact ih hnd hjt
      · have hp2 : p a = false := by revert hpa; cases p a <;> simp
        simp [List.filter, hp2, hne]
        exact ih hnd hjt

theorem unvis_append_singleton (n : Nat) (V : List Nat) (j : Nat)
    (hj : j < n) (hjV : ¬ j ∈ V) : unvis n (V ++ [j]) + 1 = unvis n V := by
  unfold unvis
  have hfeq : (List.range n).filter (fun k => !((V ++ [j]).contains k)) =
      (List.range n).filter (fun k => (!(V.contains k)) && (k != j)) := by
    refine List.filter_congr ?_
    intro k _
    have h1 : ((!((V ++ [j]).contains k)) = true) ↔ ((!(V.contains k)) && (k != j)) = true := by
      rw [not_contains_iff]
      constructor
      · intro h
        have hkV : ¬ k ∈ V := fun hm => h (List.mem_append_left [j] hm)
        have hkj : k ≠ j := by
          intro he
          exact h (List.mem_append_right V (he ▸ List.mem_singleton_self j))
        simp [hkV, hkj, not_contains_iff]
      · intro h
        rw [Bool.and_eq_true] at h
        have hkV : ¬ k ∈ V := (not_contains_iff V k).mp h.1
        have hkj : k ≠ j := by simpa using h.2
        intro hm
        cases List.mem_append.mp hm with
        | inl hm2 => exact hkV hm2
        | inr hm2 => exact hkj (List.mem_singleton.mp hm2)
    cases hb : (!((V ++ [j]).contains k))
    · cases hb2 : ((!(V.contains k)) && (k != j))
      · rfl
      · exfalso
        rw [hb] at h1
        rw [hb2] at h1
        simp at h1
    · cases hb2 : ((!(V.contains k)) && (k != j))
      · exfalso
        rw [hb] at h1
        rw [hb2] at h1
        simp at h1
      · rfl
  rw [hfeq]
  exact filter_and_ne_length (List.range n) (List.nodup_range n)
    (fun k => !(V.contains k)) j (List.mem_range.mpr hj)
    ((not_contains_iff V j).mpr hjV)

theorem unvis_pos (n : Nat) (V : List Nat) (j : Nat) (hj : j < n)
    (hjV : ¬ j ∈ V) : 1 ≤ unvis n V := by
  have : j ∈ (List.range n).filter (fun k => !(V.contains k)) :=
    List.mem_filter.mpr ⟨List.mem_range.mpr hj, (not_contains_iff V j).mpr hjV⟩
  have := List.length_pos.mpr (List.ne_nil_of_mem this)
  exact this

/-! ### Step relation lemmas -/

theorem step_state_iff {st : List State} {a b : Nat} {c : ConditionChar} {o : Edge}
    (hst : st.get? a = Option.some (State.State c o)) :
    Step st a b ↔ o = Edge.Id b := by
  unfold Step stepsTo
  rw [hst]
  simp

theorem step_split_iff {st : List State} {a b : Nat} {o1 o2 : Edge}
    (hst : st.get? a = Option.some (State.Split o1 o2)) :
    Step st a b ↔ (o1 = Edge.Id b ∨ o2 = Edge.Id b) := by
  unfold Step stepsTo
  rw [hst]
  simp

theorem step_none {st : List State} {a b : Nat}
    (hst : st.get? a = Option.none) : ¬ Step st a b := by
  unfold Step stepsTo
  rw [hst]
  simp

theorem step_congr {st1 st2 : List State} {a : Nat}
    (h : st1.get? a = st2.get? a) (b : Nat) : Step st1 a b ↔ Step st2 a b := by
  unfold Step stepsTo
  rw [h]

theorem step_lt {st : List State} (hok : arena_ok st = true) {a b : Nat}
    (h : Step st a b) : b < st.length := by
  unfold Step stepsTo at h
  cases hst : st.get? a with
  | none => rw [hst] at h; cases h
  | some s =>
    rw [hst] at h
    have hsok := arena_ok_state hok hst
    cases s with
    | State c o =>
      simp at h
      subst h
      exact edge_ok_id (by simpa [state_ok] using hsok)
    | Split o1 o2 =>
      simp at h
      have h1 : edge_ok st.length o1 = true ∧ edge_ok st.length o2 = true := by
        simpa [state_ok] using hsok
      cases h with
      | inl h2 => subst h2; exact edge_ok_id h1.1
      | inr h2 => subst h2; exact edge_ok_id h1.2

/-! ### Patch lemmas -/

theorem patch_edge_ok {n : Nat} {o e : Edge} (ho : edge_ok n o = true)
    (he : edge_ok n e = true) : edge_ok n (patch_edge e o) = true := by
  cases o <;> simpa [patch_edge] using (by first | exact he | exact ho | rfl)

theorem patch_state_ok {n : Nat} {s : State} {e : Edge}
    (hs : state_ok n s = true) (he : edge_ok n e = true) :
    state_ok n (patch_state e s) = true := by
  cases s with
  | State c o =>
    simp [state_ok, patch_state] at hs ⊢
    exact patch_edge_ok hs he
  | Split o1 o2 =>
    simp [state_ok, patch_state] at hs ⊢
    exact ⟨patch_edge_ok hs.1 he, patch_edge_ok hs.2 he⟩

theorem arena_ok_get? {st : List State} :
    arena_ok st = true ↔
      ∀ k s, st.get? k = Option.some s → state_ok st.length s = true := by
  constructor
  · intro h k s hks
    exact arena_ok_state h hks
  · intro h
    refine List.all_eq_true.mpr ?_
    intro s hmem
    obtain ⟨i, hi⟩ := List.mem_iff_get.mp hmem
    exact h i.val s (by rw [List.get?_eq_get i.isLt]; exact congrArg Option.some hi)

theorem arena_ok_of_agree {st st2 : List State} {e : Edge}
    (hlen : st2.length = st.length)
    (h : ∀ k, st2.get? k = st.get? k ∨
      st2.get? k = (st.get? k).map (patch_state e))
    (hok : arena_ok st = true) (he : edge_ok st.length e = true) :
    arena_ok st2 = true := by
  rw [arena_ok_get?]
  intro k s hks
  rw [hlen]
  cases h k with
  | inl h2 =>
    rw [h2] at hks
    exact arena_ok_state hok hks
  | inr h2 =>
    rw [h2] at hks
    cases hsk : st.get? k with
    | none => rw [hsk] at hks; cases hks
    | some s0 =>
      rw [hsk] at hks
      simp [Option.map] at hks
      subst hks
      exact patch_state_ok (arena_ok_state hok hsk) he

/-! ### Edge patcher: unfolding lemmas -/

theorem urec_zero (st : List State) (i : Nat) (V : List Nat) (e : Edge) :
    update_outputs_rec 0 st i V e = Res.fuelOut := rfl

theorem urec_succ_none (f : Nat) (st : List State) (i : Nat) (V : List Nat)
    (e : Edge) (hst : st.get? i = Option.none) :
    update_outputs_rec (f + 1) st i V e = Res.panicked := by
  rw [update_outputs_rec, hst]

theorem urec_succ_state (f : Nat) (st : List State) (i : Nat) (V : List Nat)
    (e : Edge) (c : ConditionChar) (o : Edge)
    (hst : st.get? i = Option.some (State.State c o)) :
    update_outputs_rec (f + 1) st i V e =
      (replace_edge f st o e V).bind
        fun r => Res.ok ((r.2.1).set i (State.State c r.1), r.2.2) := by
  rw [update_outputs_rec, hst]
  rfl

theorem urec_succ_split (f : Nat) (st : List State) (i : Nat) (V : List Nat)
    (e : Edge) (o1 o2 : Edge)
    (hst : st.get? i = Option.some (State.Split o1 o2)) :
    update_outputs_rec (f + 1) st i V e =
      (replace_edge f st o1 e V).bind fun r1 =>
      (replace_edge f (r1.2.1) o2 e (r1.2.2)).bind fun r2 =>
      Res.ok ((r2.2.1).set i (State.Split r1.1 r2.1), r2.2.2) := by
  rw [update_outputs_rec, hst]
  rfl

/-! ### Edge patcher: correctness by induction on fuel -/

/-- Full specification of `update_outputs_rec` at fuel `f`: on a well-formed
arena, with the processed index already in the visited list and enough fuel,
the pass returns; the visited list is extended only by fresh in-range indices
reachable from the entry while avoiding the initial visited list; all
successors of processed states are visited afterwards; and the arena is
patched exactly at the processed positions. -/
def UrecSpec (e : Edge) (f : Nat) : Prop :=
  ∀ (st : List State) (i : Nat) (V : List Nat),
    arena_ok st = true → edge_ok st.length e = true →
    i < st.length → i ∈ V →
    unvis st.length V + 1 ≤ f →
    ∃ st2 V2,
      update_outputs_rec f st i V e = Res.ok (st2, V2) ∧
      (∃ L, V2 = V ++ L) ∧
      st2.length = st.length ∧
      (∀ k, k ∈ V2 → ¬ k ∈ V →
        Relation.ReflTransGen (avoidStep st V) i k ∧ k < st.length) ∧
      (∀ j, Step st i j → j ∈ V2) ∧
      (∀ u j, u ∈ V2 → ¬ u ∈ V → Step st u j → j ∈ V2) ∧
      (∀ k, (k = i ∨ (k ∈ V2 ∧ ¬ k ∈ V)) →
        st2.get? k = (st.get? k).map (patch_state e)) ∧
      (∀ k, ¬ (k = i ∨ (k ∈ V2 ∧ ¬ k ∈ V)) → st2.get? k = st.get? k)

/-- Corresponding specification of `replace_edge` at fuel `f` (fuel of its
inner recursive call). -/
def ReplSpec (e : Edge) (f : Nat) : Prop :=
  ∀ (st : List State) (o : Edge) (V : List Nat),
    arena_ok st = true → edge_ok st.length e = true → edge_ok st.length o = true →
    unvis st.length V ≤ f →
    ∃ p st2 V2,
      replace_edge f st o e V = Res.ok (p, st2, V2) ∧
      p = patch_edge e o ∧
      (∃ L, V2 = V ++ L) ∧
      st2.length = st.length ∧
      (∀ k, k ∈ V2 → ¬ k ∈ V → ∃ j, o = Edge.Id j ∧ ¬ j ∈ V ∧
        Relation.ReflTransGen (avoidStep st V) j k ∧ k < st.length) ∧
      (∀ j, o = Edge.Id j → j ∈ V2) ∧
      (∀ u j, u ∈ V2 → ¬ u ∈ V → Step st u j → j ∈ V2) ∧
      (∀ k, (k ∈ V2 ∧ ¬ k ∈ V) → st2.get? k = (st.get? k).map (patch_state e)) ∧
      (∀ k, ¬ (k ∈ V2 ∧ ¬ k ∈ V) → st2.get? k = st.get? k)

theorem replace_edge_detached (f : Nat) (st : List State) (e : Edge) (V : List Nat) :
    replace_edge f st Edge.Detached e V = Res.ok (e, st, V) := rfl

theorem replace_edge_end (f : Nat) (st : List State) (e : Edge) (V : List Nat) :
    replace_edge f st Edge.End e V = Res.ok (Edge.End, st, V) := rfl

theorem replace_edge_id (f : Nat) (st : List State) (j : Nat) (e : Edge) (V : List Nat) :
    replace_edge f st (Edge.Id j) e V =
      if V.contains j = true then Res.ok (Edge.Id j, st, V)
      else
        match update_outputs_rec f st j (V ++ [j]) e with
        | Res.ok (st2, v2) => Res.ok (Edge.Id j, st2, v2)
        | Res.panicked => Res.panicked
        | Res.fuelOut => Res.fuelOut := rfl

theorem repl_spec_step (e : Edge) (f : Nat) (H : UrecSpec e f) : ReplSpec e f := by
  intro st o V hok he ho hf
  cases o with
  | Detached =>
    refine ⟨e, st, V, rfl, rfl, ⟨[], by simp⟩, rfl, ?_, ?_, ?_, ?_, ?_⟩
    · intro k hk hkV; exact absurd hk hkV
    · intro j hj; cases hj
    · intro u j hu huV _; exact absurd hu huV
    · intro k hk; exact absurd hk.1 hk.2
    · intro _ _; rfl
  | End =>
    refine ⟨Edge.End, st, V, rfl, rfl, ⟨[], by simp⟩, rfl, ?_, ?_, ?_, ?_, ?_⟩
    · intro k hk hkV; exact absurd hk hkV
    · intro j hj; cases hj
    · intro u j hu huV _; exact absurd hu huV
    · intro k hk; exact absurd hk.1 hk.2
    · intro _ _; rfl
  | Id j =>
    by_cases hjV : V.contains j = true
    · have hjmem : j ∈ V := (contains_iff V j).mp hjV
      refine ⟨Edge.Id j, st, V, ?_, rfl, ⟨[], by simp⟩, rfl, ?_, ?_, ?_, ?_, ?_⟩
      · rw [replace_edge_id, if_pos hjV]
      · intro k hk hkV; exact absurd hk hkV
      · intro j2 hj2
        injection hj2 with hj2
        exact hj2 ▸ hjmem
      · intro u j2 hu huV _; exact absurd hu huV
      · intro k hk; exact absurd hk.1 hk.2
      · intro _ _; rfl
    · have hjV' : ¬ j ∈ V := fun h => hjV ((contains_iff V j).mpr h)
      have hjlt : j < st.length := edge_ok_id ho
      have hjmem : j ∈ V ++ [j] :=
        List.mem_append_right V (List.mem_singleton_self j)
      have hfbound : unvis st.length (V ++ [j]) + 1 ≤ f := by
        have h1 := unvis_append_singleton st.length V j hjlt hjV'
        omega
      obtain ⟨st2, V2, hrun, ⟨L, hL⟩, hlen, hnew, hsucc, hclos, hpos, hneg⟩ :=
        H st j (V ++ [j]) hok he hjlt hjmem hfbound
      have hjV2 : j ∈ V2 := by
        rw [hL]; exact List.mem_append_left L hjmem
      refine ⟨Edge.Id j, st2, V2, ?_, rfl, ⟨[j] ++ L, by rw [hL, List.append_assoc]⟩,
        hlen, ?_, ?_, ?_, ?_, ?_⟩
      · rw [replace_edge_id, if_neg hjV, hrun]
      · intro k hk hkV
        by_cases hkj : k = j
        · subst hkj
          exact ⟨k, rfl, hjV', Relation.ReflTransGen.refl, hjlt⟩
        · have hk2 : ¬ k ∈ V ++ [j] := by
            intro hm
            cases List.mem_append.mp hm with
            | inl hm2 => exact hkV hm2
            | inr hm2 => exact hkj (List.mem_singleton.mp hm2)
          obtain ⟨hpath, hklt⟩ := hnew k hk hk2
          refine ⟨j, rfl, hjV', ?_, hklt⟩
          refine Relation.ReflTransGen.mono ?_ hpath
          intro a b hab
          exact ⟨hab.1, fun hb => hab.2 (List.mem_append_left [j] hb)⟩
      · intro j2 hj2
        injection hj2 with hj2
        exact hj2 ▸ hjV2
      · intro u k hu huV hstep
        by_cases huj : u = j
        · subst huj
          exact hsucc k hstep
        · have : ¬ u ∈ V ++ [j] := by
            intro hm
            cases List.mem_append.mp hm with
            | inl hm2 => exact huV hm2
            | inr hm2 => exact huj (List.mem_singleton.mp hm2)
          exact hclos u k hu this hstep
      · intro k hk
        by_cases hkj : k = j
        · exact hpos k (Or.inl hkj)
        · refine hpos k (Or.inr ⟨hk.1, ?_⟩)
          intro hm
          cases List.mem_append.mp hm with
          | inl hm2 => exact hk.2 hm2
          | inr hm2 => exact hkj (List.mem_singleton.mp hm2)
      · intro k hk
        apply hneg
        intro hcond
        cases hcond with
        | inl hkj => exact hk ⟨hkj ▸ hjV2, hkj ▸ hjV'⟩
        | inr hc =>
          refine hk ⟨hc.1, ?_⟩
          intro hm
          exact hc.2 (List.mem_append_left [j] hm)

/-- Avoid-paths computed against a partially patched arena transfer to the
original arena, as long as their nodes are outside the set of patched
positions. -/
theorem rtg_avoid_convert {st1 st : List State} {V V1 : List Nat} {j k : Nat}
    (hpath : Relation.ReflTransGen (avoidStep st1 V1) j k)
    (hjV1 : ¬ j ∈ V1)
    (hagree : ∀ u, ¬ u ∈ V1 → st1.get? u = st.get? u)
    (hVV1 : ∀ u, u ∈ V → u ∈ V1) :
    Relation.ReflTransGen (avoidStep st V) j k := by
  induction hpath using Relation.ReflTransGen.head_induction_on with
  | refl => exact Relation.ReflTransGen.refl
  | head hstep _ ih =>
    rename_i a c _
    have hc1 : ¬ c ∈ V1 := hstep.2
    have hstep2 : Step st a c := (step_congr (hagree a hjV1) c).mp hstep.1
    exact Relation.ReflTransGen.head ⟨hstep2, fun hc => hc1 (hVV1 c hc)⟩ (ih hc1)

theorem urec_spec_step (e : Edge) (f : Nat) (H : ReplSpec e f) : UrecSpec e (f + 1) := by
  intro st i V hok he hi hiV hf
  have hf2 : unvis st.length V ≤ f := by omega
  obtain ⟨s, hgs⟩ : ∃ s, st.get? i = Option.some s :=
    ⟨st.get ⟨i, hi⟩, List.get?_eq_get hi⟩
  have hsok : state_ok st.length s = true := arena_ok_state hok hgs
  cases s with
  | State c o =>
    have ho : edge_ok st.length o = true := by simpa [state_ok] using hsok
    obtain ⟨p, st2, V2, hrun, hp, ⟨L, hL⟩, hlen, hnew, hsucc, hclos, hpos, hneg⟩ :=
      H st o V hok he ho hf2
    refine ⟨st2.set i (State.State c p), V2, ?_, ⟨L, hL⟩, ?_, ?_, ?_, ?_, ?_, ?_⟩
    · rw [urec_succ_state f st i V e c o hgs, hrun]
      rfl
    · rw [List.length_set]
      exact hlen
    · intro k hk hkV
      obtain ⟨j, hoj, hjV, hpath, hklt⟩ := hnew k hk hkV
      refine ⟨Relation.ReflTransGen.head ⟨(step_state_iff hgs).mpr hoj, hjV⟩ hpath, hklt⟩
    · intro j hstep
      exact hsucc j ((step_state_iff hgs).mp hstep)
    · exact hclos
    · intro k hk
      cases hk with
      | inl hki =>
        subst hki
        rw [List.get?_set_eq_of_lt _ (by rw [hlen]; exact hi), hgs, hp]
        rfl
      | inr hk2 =>
        have hki : k ≠ i := fun h => hk2.2 (h ▸ hiV)
        rw [List.get?_set_ne _ _ (fun h => hki h.symm)]
        exact hpos k hk2
    · intro k hk
      have hki : k ≠ i := fun h => hk (Or.inl h)
      have hk2 : ¬ (k ∈ V2 ∧ ¬ k ∈ V) := fun h => hk (Or.inr h)
      rw [List.get?_set_ne _ _ (fun h => hki h.symm)]
      exact hneg k hk2
  | Split o1 o2 =>
    have ho1 : edge_ok st.length o1 = true := by
      have := hsok; simp [state_ok] at this; exact this.1
    have ho2 : edge_ok st.length o2 = true := by
      have := hsok; simp [state_ok] at this; exact this.2
    obtain ⟨p1, st1, V1, hrun1, hp1, ⟨L1, hL1⟩, hlen1, hnew1, hsucc1, hclos1, hpos1, hneg1⟩ :=
      H st o1 V hok he ho1 hf2
    have hVV1 : ∀ u, u ∈ V → u ∈ V1 := by
      intro u hu; rw [hL1]; exact List.mem_append_left L1 hu
    have hagree1 : ∀ u, ¬ u ∈ V1 → st1.get? u = st.get? u := by
      intro u hu
      exact hneg1 u (fun h => hu h.1)
    have hok1 : arena_ok st1 = true := by
      refine arena_ok_of_agree hlen1 ?_ hok he
      intro k
      by_cases hc : k ∈ V1 ∧ ¬ k ∈ V
      · exact Or.inr (hpos1 k hc)
      · exact Or.inl (hneg1 k hc)
    have he1 : edge_ok st1.length e = true := by rw [hlen1]; exact he
    have ho2b : edge_ok st1.length o2 = true := by rw [hlen1]; exact ho2
    have hf1 : unvis st1.length V1 ≤ f := by
      rw [hlen1, hL1]
      calc unvis st.length (V ++ L1) ≤ unvis st.length V := unvis_append_mono _ _ _
        _ ≤ f := hf2
    obtain ⟨p2, st2, V2, hrun2, hp2, ⟨L2, hL2⟩, hlen2, hnew2, hsucc2, hclos2, hpos2, hneg2⟩ :=
      H st1 o2 V1 hok1 he1 ho2b hf1
    have hV1V2 : ∀ u, u ∈ V1 → u ∈ V2 := by
      intro u hu; rw [hL2]; exact List.mem_append_left L2 hu
    refine ⟨st2.set i (State.Split p1 p2), V2, ?_, ?_, ?_, ?_, ?_, ?_, ?_, ?_⟩
    · rw [urec_succ_split f st i V e o1 o2 hgs, hrun1]
      show (replace_edge f st1 o2 e V1).bind _ = _
      rw [hrun2]
      rfl
    · refine ⟨L1 ++ L2, ?_⟩
      rw [hL2, hL1, List.append_assoc]
    · rw [List.length_set, hlen2, hlen1]
    · intro k hk hkV
      by_cases hk1 : k ∈ V1
      · obtain ⟨j, hoj, hjV, hpath, hklt⟩ := hnew1 k hk1 hkV
        exact ⟨Relation.ReflTransGen.head
          ⟨(step_split_iff hgs).mpr (Or.inl hoj), hjV⟩ hpath, hklt⟩
      · obtain ⟨j, hoj, hjV1, hpath2, hklt2⟩ := hnew2 k hk hk1
        have hjV : ¬ j ∈ V := fun h => hjV1 (hVV1 j h)
        have hpath : Relation.ReflTransGen (avoidStep st V) j k :=
          rtg_avoid_convert hpath2 hjV1 hagree1 hVV1
        refine ⟨Relation.ReflTransGen.head
          ⟨(step_split_iff hgs).mpr (Or.inr hoj), hjV⟩ hpath, ?_⟩
        rw [← hlen1]
        exact hklt2
    · intro j hstep
      cases (step_split_iff hgs).mp hstep with
      | inl h => exact hV1V2 j (hsucc1 j h)
      | inr h => exact hsucc2 j h
    · intro u k hu huV hstep
      by_cases hu1 : u ∈ V1
      · exact hV1V2 k (hclos1 u k hu1 huV hstep)
      · have hstep1 : Step st1 u k := (step_congr (hagree1 u hu1) k).mpr hstep
        exact hclos2 u k hu hu1 hstep1
    · intro k hk
      cases hk with
      | inl hki =>
        subst hki
        rw [List.get?_set_eq_of_lt _ (by rw [hlen2, hlen1]; exact hi),
          hgs, hp1, hp2]
        rfl
      | inr hk2 =>
        have hki : k ≠ i := fun h => hk2.2 (h ▸ hiV)
        rw [List.get?_set_ne _ _ (fun h => hki h.symm)]
        by_cases hk1 : k ∈ V1
        · have hstep2 : st2.get? k = st1.get? k :=
            hneg2 k (fun h => h.2 hk1)
          rw [hstep2]
          exact hpos1 k ⟨hk1, hk2.2⟩
        · rw [hpos2 k ⟨hk2.1, hk1⟩, hagree1 k hk1]
    · intro k hk
      have hki : k ≠ i := fun h => hk (Or.inl h)
      have hk2 : ¬ (k ∈ V2 ∧ ¬ k ∈ V) := fun h => hk (Or.inr h)
      rw [List.get?_set_ne _ _ (fun h => hki h.symm)]
      have hkV2V : k ∈ V2 → k ∈ V := by
        intro h
        by_contra hc
        exact hk2 ⟨h, hc⟩
      have hn2 : st2.get? k = st1.get? k := by
        refine hneg2 k ?_
        intro h
        exact h.2 (hVV1 k (hkV2V (h.1)))
      have hn1 : st1.get? k = st.get? k := by
        refine hneg1 k ?_
        intro h
        exact hk2 ⟨hV1V2 k h.1, h.2⟩
      rw [hn2, hn1]

theorem urec_spec_all (e : Edge) : ∀ f, UrecSpec e f := by
  intro f
  induction f with
  | zero =>
    intro st i V _ _ _ _ hfuel
    exact absurd hfuel (by omega)
  | succ f ih => exact urec_spec_step e f (repl_spec_step e f ih)

/-- Master correctness theorem of one patching pass (`update_outputs`): it
returns normally on a well-formed arena, and the result is the input arena
with exactly the states reachable from the entry index patched (each of
their `Detached` edges replaced by the target edge), every other state and
every `Linked`/`End` edge left unchanged. -/
theorem update_outputs_spec (st : List State) (i : Nat) (e : Edge)
    (hok : arena_ok st = true) (he : edge_ok st.length e = true)
    (hi : i < st.length) :
    ∃ st2, update_outputs st i e = Res.ok st2 ∧ st2.length = st.length ∧
      (∀ k, Reach st i k → st2.get? k = (st.get? k).map (patch_state e)) ∧
      (∀ k, ¬ Reach st i k → st2.get? k = st.get? k) := by
  have hfuel : unvis st.length [i] + 1 ≤ st.length + 2 := by
    have := unvis_le st.length [i]
    omega
  obtain ⟨st2, V2, hrun, ⟨L, hL⟩, hlen, hnew, hsucc, hclos, hpos, hneg⟩ :=
    urec_spec_all e (st.length + 2) st i [i] hok he hi (List.mem_singleton_self i) hfuel
  have hreach_in : ∀ k, Reach st i k → k = i ∨ k ∈ V2 := by
    intro k hk
    induction hk with
    | refl => exact Or.inl rfl
    | tail _ hstep ih =>
      rename_i b c _
      cases ih with
      | inl hb => exact Or.inr (hsucc _ (hb ▸ hstep))
      | inr hb =>
        by_cases hbV : b ∈ [i]
        · have hbi : b = i := List.mem_singleton.mp hbV
          exact Or.inr (hsucc _ (hbi ▸ hstep))
        · exact Or.inr (hclos b _ hb hbV hstep)
  refine ⟨st2, ?_, hlen, ?_, ?_⟩
  · unfold update_outputs
    rw [hrun]
    rfl
  · intro k hk
    cases hreach_in k hk with
    | inl h => exact hpos k (Or.inl h)
    | inr h =>
      by_cases hki : k = i
      · exact hpos k (Or.inl hki)
      · refine hpos k (Or.inr ⟨h, ?_⟩)
        intro hm
        exact hki (List.mem_singleton.mp hm)
  · intro k hk
    refine hneg k ?_
    intro hcond
    apply hk
    cases hcond with
    | inl h => exact h ▸ Relation.ReflTransGen.refl
    | inr hc =>
      obtain ⟨hpath, _⟩ := hnew k hc.1 hc.2
      exact Relation.ReflTransGen.mono (fun a b hab => hab.1) hpath

/-! ### Fragment builder: region invariants -/

/-- Edge of a fragment region `[lo, hi)`: a `Linked` edge stays inside the
region, `Open` is the pending exit placeholder, and `Accept` never occurs in
a fragment under construction. -/
def edge_ok_region (lo hi : Nat) : Edge → Bool
  | Edge.Id t => decide (lo ≤ t) && decide (t < hi)
  | Edge.Detached => true
  | Edge.End => false

/-- State of a fragment region: its edges stay in the region and its
condition is never the transient `None` sentinel. -/
def state_ok_region (lo hi : Nat) : State → Bool
  | State.State ConditionChar.None _ => false
  | State.State _ o => edge_ok_region lo hi o
  | State.Split o1 o2 => edge_ok_region lo hi o1 && edge_ok_region lo hi o2

/-- All states of the region `[lo, hi)` of the arena satisfy the region
state invariant. -/
def RegionOk (lo hi : Nat) (st : List State) : Prop :=
  ∀ k, lo ≤ k → k < hi → ∀ s, st.get? k = Option.some s →
    state_ok_region lo hi s = true

/-- The invariant every `build_expr` call establishes for the fragment it
returns: the input arena is preserved as a prefix, at least one state is
appended, the entry index is in the new region, the region is closed and
free of `Accept` edges and `None` conditions, every region state is
reachable from the entry, and from every region state an `Open` exit is
reachable. -/
structure FragInv (st0 st : List State) (id : Nat) : Prop where
  prefix_eq : ∃ L, st = st0 ++ L
  len_lt : st0.length < st.length
  id_lo : st0.length ≤ id
  id_hi : id < st.length
  region : RegionOk st0.length st.length st
  reach_all : ∀ k, st0.length ≤ k → k < st.length → Reach st id k
  exit_reach : ∀ k, st0.length ≤ k → k < st.length →
    ∃ m s, Reach st k m ∧ st.get? m = Option.some s ∧ has_detached s = true

theorem step_cases {st : List State} {a b : Nat} (h : Step st a b) :
    ∃ s, st.get? a = Option.some s ∧
      ((∃ c o, s = State.State c o ∧ o = Edge.Id b) ∨
       (∃ o1 o2, s = State.Split o1 o2 ∧ (o1 = Edge.Id b ∨ o2 = Edge.Id b))) := by
  cases hst : st.get? a with
  | none => exact absurd h (step_none hst)
  | some s =>
    cases s with
    | State c o =>
      exact ⟨_, rfl, Or.inl ⟨c, o, rfl, (step_state_iff hst).mp h⟩⟩
    | Split o1 o2 =>
      exact ⟨_, rfl, Or.inr ⟨o1, o2, rfl, (step_split_iff hst).mp h⟩⟩

theorem edge_ok_region_id {lo hi t : Nat}
    (h : edge_ok_region lo hi (Edge.Id t) = true) : lo ≤ t ∧ t < hi := by
  simpa [edge_ok_region] using h

theorem region_step {lo hi : Nat} {st : List State} (h : RegionOk lo hi st)
    {u v : Nat} (hu1 : lo ≤ u) (hu2 : u < hi) (hstep : Step st u v) :
    lo ≤ v ∧ v < hi := by
  obtain ⟨s, hgs, hcase⟩ := step_cases hstep
  have hsr := h u hu1 hu2 s hgs
  cases hcase with
  | inl hc =>
    obtain ⟨c, o, rfl, ho⟩ := hc
    subst ho
    cases c with
    | None => simp [state_ok_region] at hsr
    | One c2 => exact edge_ok_region_id (by simpa [state_ok_region] using hsr)
    | Any => exact edge_ok_region_id (by simpa [state_ok_region] using hsr)
    | Class cs => exact edge_ok_region_id (by simpa [state_ok_region] using hsr)
  | inr hc =>
    obtain ⟨o1, o2, rfl, ho⟩ := hc
    have hsr2 : edge_ok_region lo hi o1 = true ∧ edge_ok_region lo hi o2 = true := by
      simpa [state_ok_region] using hsr
    cases ho with
    | inl h2 => exact edge_ok_region_id (h2 ▸ hsr2.1)
    | inr h2 => exact edge_ok_region_id (h2 ▸ hsr2.2)

theorem region_reach {lo hi : Nat} {st : List State} (h : RegionOk lo hi st)
    {u k : Nat} (hu1 : lo ≤ u) (hu2 : u < hi) (hreach : Reach st u k) :
    lo ≤ k ∧ k < hi := by
  induction hreach with
  | refl => exact ⟨hu1, hu2⟩
  | tail _ hstep ih => exact region_step h ih.1 ih.2 hstep

/-- Lifting reachability from one arena to another that agrees with it (up
to patching) on all reachable states. -/
theorem reach_lift {stA stB : List State} (e : Edge) {i : Nat}
    (h : ∀ u, Reach stA i u →
      stB.get? u = stA.get? u ∨
      stB.get? u = (stA.get? u).map (patch_state e)) :
    ∀ k, Reach stA i k → Reach stB i k := by
  intro k hk
  induction hk with
  | refl => exact Relation.ReflTransGen.refl
  | tail hu hstep ih =>
    rename_i b c
    have hstepB : Step stB b c := by
      cases h b hu with
      | inl hagree => exact (step_congr hagree c).mpr hstep
      | inr hpatch =>
        obtain ⟨s, hgs, hcase⟩ := step_cases hstep
        rw [hgs] at hpatch
        cases hcase with
        | inl hc =>
          obtain ⟨c2, o, rfl, ho⟩ := hc
          subst ho
          have hp2 : stB.get? b = Option.some (State.State c2 (Edge.Id c)) := by
            simpa [patch_state, patch_edge] using hpatch
          exact (step_state_iff hp2).mpr rfl
        | inr hc =>
          obtain ⟨o1, o2, rfl, ho⟩ := hc
          have hp2 : stB.get? b = Option.some
              (State.Split (patch_edge e o1) (patch_edge e o2)) := by
            simpa [patch_state] using hpatch
          refine (step_split_iff hp2).mpr ?_
          cases ho with
          | inl h2 => exact Or.inl (by rw [h2]; rfl)
          | inr h2 => exact Or.inr (by rw [h2]; rfl)
    exact Relation.ReflTransGen.tail ih hstepB

/-- A patched state with a pending `Open` exit steps to the patch target. -/
theorem step_patch_detached {st st2 : List State} {m t : Nat} {s : State}
    (hgs : st.get? m = Option.some s) (hd : has_detached s = true)
    (hp : st2.get? m = (st.get? m).map (patch_state (Edge.Id t))) :
    Step st2 m t := by
  rw [hgs] at hp
  cases s with
  | State c o =>
    cases o with
    | Detached =>
      have hp2 : st2.get? m = Option.some (State.State c (Edge.Id t)) := by
        simpa [patch_state, patch_edge] using hp
      exact (step_state_iff hp2).mpr rfl
    | Id j => simp [has_detached] at hd
    | End => simp [has_detached] at hd
  | Split o1 o2 =>
    have hp2 : st2.get? m =
        Option.some (State.Split (patch_edge (Edge.Id t) o1) (patch_edge (Edge.Id t) o2)) := by
      simpa [patch_state] using hp
    cases o1 with
    | Detached => exact (step_split_iff hp2).mpr (Or.inl rfl)
    | Id j =>
      cases o2 with
      | Detached => exact (step_split_iff hp2).mpr (Or.inr rfl)
      | Id j2 => simp [has_detached] at hd
      | End => simp [has_detached] at hd
    | End =>
      cases o2 with
      | Detached => exact (step_split_iff hp2).mpr (Or.inr rfl)
      | Id j2 => simp [has_detached] at hd
      | End => simp [has_detached] at hd

theorem get?_append_left {st0 L : List State} {k : Nat} (h : k < st0.length) :
    (st0 ++ L).get? k = st0.get? k := List.get?_append h

theorem prefix_of_agree {st0 l : List State} (hlen : st0.length ≤ l.length)
    (h : ∀ k, k < st0.length → l.get? k = st0.get? k) :
    ∃ L, l = st0 ++ L := by
  refine ⟨l.drop st0.length, ?_⟩
  refine List.ext ?_
  intro n
  by_cases hn : n < st0.length
  · rw [get?_append_left hn, h n hn]
  · have h1 : st0.length ≤ n := Nat.le_of_not_lt hn
    rw [List.get?_append_right (Nat.le_of_not_lt hn), List.get?_drop]
    congr 1
    omega

theorem edge_ok_mono {n n2 : Nat} {o : Edge} (h : n ≤ n2)
    (ho : edge_ok n o = true) : edge_ok n2 o = true := by
  cases o with
  | Id t =>
    have := edge_ok_id ho
    simp [edge_ok]
    omega
  | Detached => rfl
  | End => rfl

theorem state_ok_mono {n n2 : Nat} {s : State} (h : n ≤ n2)
    (hs : state_ok n s = true) : state_ok n2 s = true := by
  cases s with
  | State c o =>
    simp [state_ok] at hs ⊢
    exact edge_ok_mono h hs
  | Split o1 o2 =>
    simp [state_ok] at hs ⊢
    exact ⟨edge_ok_mono h hs.1, edge_ok_mono h hs.2⟩

theorem arena_ok_append_one {st : List State} {s : State}
    (hok : arena_ok st = true) (hs : state_ok (st.length + 1) s = true) :
    arena_ok (st ++ [s]) = true := by
  refine List.all_eq_true.mpr ?_
  intro x hx
  have hlen : (st ++ [s]).length = st.length + 1 := by simp
  rw [hlen]
  cases List.mem_append.mp hx with
  | inl h2 =>
    exact state_ok_mono (Nat.le_succ _) (List.all_eq_true.mp hok x h2)
  | inr h2 =>
    rw [List.mem_singleton.mp h2]
    exact hs

theorem state_ok_of_region {lo hi n : Nat} {s : State} (hle : hi ≤ n)
    (hs : state_ok_region lo hi s = true) : state_ok n s = true := by
  have hedge : ∀ o : Edge, edge_ok_region lo hi o = true → edge_ok n o = true := by
    intro o ho
    cases o with
    | Id t =>
      have := edge_ok_region_id ho
      simp [edge_ok]
      omega
    | Detached => rfl
    | End => rfl
  cases s with
  | State c o =>
    cases c with
    | None => simp [state_ok_region] at hs
    | One c2 => exact (by simpa [state_ok] using hedge o (by simpa [state_ok_region] using hs))
    | Any => exact (by simpa [state_ok] using hedge o (by simpa [state_ok_region] using hs))
    | Class cs => exact (by simpa [state_ok] using hedge o (by simpa [state_ok_region] using hs))
  | Split o1 o2 =>
    have hs2 : edge_ok_region lo hi o1 = true ∧ edge_ok_region lo hi o2 = true := by
      simpa [state_ok_region] using hs
    simp [state_ok]
    exact ⟨hedge o1 hs2.1, hedge o2 hs2.2⟩

theorem state_ok_region_mono {lo hi lo2 hi2 : Nat} {s : State}
    (hlo : lo2 ≤ lo) (hhi : hi ≤ hi2)
    (hs : state_ok_region lo hi s = true) : state_ok_region lo2 hi2 s = true := by
  have hedge : ∀ o : Edge, edge_ok_region lo hi o = true →
      edge_ok_region lo2 hi2 o = true := by
    intro o ho
    cases o with
    | Id t =>
      have := edge_ok_region_id ho
      simp [edge_ok_region]
      omega
    | Detached => rfl
    | End => simp [edge_ok_region] at ho
  cases s with
  | State c o =>
    cases c with
    | None => simp [state_ok_region] at hs
    | One c2 => exact (by simpa [state_ok_region] using hedge o (by simpa [state_ok_region] using hs))
    | Any => exact (by simpa [state_ok_region] using hedge o (by simpa [state_ok_region] using hs))
    | Class cs => exact (by simpa [state_ok_region] using hedge o (by simpa [state_ok_region] using hs))
  | Split o1 o2 =>
    have hs2 : edge_ok_region lo hi o1 = true ∧ edge_ok_region lo hi o2 = true := by
      simpa [state_ok_region] using hs
    simp [state_ok_region]
    exact ⟨hedge o1 hs2.1, hedge o2 hs2.2⟩

theorem patch_state_region {lo hi hi2 t : Nat} {s : State}
    (hs : state_ok_region lo hi s = true) (ht1 : lo ≤ t) (ht2 : t < hi2)
    (hhi : hi ≤ hi2) :
    state_ok_region lo hi2 (patch_state (Edge.Id t) s) = true := by
  have hedge : ∀ o : Edge, edge_ok_region lo hi o = true →
      edge_ok_region lo hi2 (patch_edge (Edge.Id t) o) = true := by
    intro o ho
    cases o with
    | Id j =>
      have := edge_ok_region_id ho
      simp [patch_edge, edge_ok_region]
      omega
    | Detached =>
      simp [patch_edge, edge_ok_region]
      omega
    | End => simp [edge_ok_region] at ho
  cases s with
  | State c o =>
    cases c with
    | None => simp [state_ok_region] at hs
    | One c2 => exact (by
        simpa [state_ok_region, patch_state] using
          hedge o (by simpa [state_ok_region] using hs))
    | Any => exact (by
        simpa [state_ok_region, patch_state] using
          hedge o (by simpa [state_ok_region] using hs))
    | Class cs => exact (by
        simpa [state_ok_region, patch_state] using
          hedge o (by simpa [state_ok_region] using hs))
  | Split o1 o2 =>
    have hs2 : edge_ok_region lo hi o1 = true ∧ edge_ok_region lo hi o2 = true := by
      simpa [state_ok_region] using hs
    simp [state_ok_region, patch_state]
    exact ⟨hedge o1 hs2.1, hedge o2 hs2.2⟩

theorem region_append {lo hi : Nat} {st L : List State} (h : RegionOk lo hi st)
    (hhi : hi ≤ st.length) : RegionOk lo hi (st ++ L) := by
  intro k hk1 hk2 s hgs
  rw [get?_append_left (Nat.lt_of_lt_of_le hk2 hhi)] at hgs
  exact h k hk1 hk2 s hgs

/-- All literal and class characters of the tree encode as one UTF-8 byte
(the condition under which `to_ascii` never panics). -/
def good_chars : Expr → Bool
  | Expr.Any => true
  | Expr.Single c => decide (c.toNat < 128)
  | Expr.Class chars => chars.all (fun c => decide (c.toNat < 128))
  | Expr.Sequence a b => good_chars a && good_chars b
  | Expr.Optional e => good_chars e
  | Expr.OneOrMore e => good_chars e
  | Expr.ZeroOrMore e => good_chars e
  | Expr.Or a b => good_chars a && good_chars b

theorem mapToAscii_good {chars : List Char}
    (h : chars.all (fun c => decide (c.toNat < 128)) = true) :
    mapToAscii chars = Res.ok (chars.map Char.toNat) := by
  induction chars with
  | nil => rfl
  | cons c cs ih =>
    simp at h
    have hc : c.toNat < 128 := h.1
    have hcs := ih (by simpa using h.2)
    simp [mapToAscii, to_ascii, hc, hcs, Res.bind, Res.map]

theorem mapToAscii_bad {chars : List Char}
    (h : ¬ chars.all (fun c => decide (c.toNat < 128)) = true) :
    mapToAscii chars = Res.panicked := by
  induction chars with
  | nil => simp at h
  | cons c cs ih =>
    by_cases hc : c.toNat < 128
    · have hcs : ¬ cs.all (fun c => decide (c.toNat < 128)) = true := by
        intro h2
        exact h (by simp [hc, h2])
      simp [mapToAscii, to_ascii, hc, ih hcs, Res.bind, Res.map]
    · simp [mapToAscii, to_ascii, hc, Res.bind]

theorem get?_concat_length (l : List State) (s : State) :
    (l ++ [s]).get? l.length = Option.some s := by
  rw [List.get?_append_right (Nat.le_refl _)]
  simp

/-- Common core of the repetition and sequencing cases: patching the open
exits of a fragment (living in `[st0.length, st1.length)` of a larger arena
`stX`) with a link to `t` patches exactly the fragment's states, keeps the
rest of the arena intact, and afterwards the whole fragment is still
reachable from its entry and every fragment state reaches a state that
steps into `t`. -/
theorem patch_frag {st0 st1 stX : List State} {idE t : Nat}
    (hfrag : FragInv st0 st1 idE)
    (hX : ∃ L, stX = st1 ++ L)
    (harena : arena_ok stX = true)
    (ht : t < stX.length) :
    ∃ st3, update_outputs stX idE (Edge.Id t) = Res.ok st3 ∧
      st3.length = stX.length ∧
      (∀ k, st0.length ≤ k → k < st1.length →
        st3.get? k = (st1.get? k).map (patch_state (Edge.Id t))) ∧
      (∀ k, ¬ (st0.length ≤ k ∧ k < st1.length) → st3.get? k = stX.get? k) ∧
      (∀ k, st0.length ≤ k → k < st1.length → Reach st3 idE k) ∧
      (∀ k, st0.length ≤ k → k < st1.length →
        ∃ m, Reach st3 k m ∧ Step st3 m t) := by
  obtain ⟨L, hL⟩ := hX
  have hlen1X : st1.length ≤ stX.length := by rw [hL]; simp
  have hagree1X : ∀ k, k < st1.length → stX.get? k = st1.get? k := by
    intro k hk
    rw [hL]
    exact get?_append_left hk
  have hregX : RegionOk st0.length st1.length stX := by
    rw [hL]
    exact region_append hfrag.region (Nat.le_refl _)
  -- reachability from the fragment entry inside `stX` is exactly the region
  have hreach_region : ∀ k, Reach stX idE k →
      st0.length ≤ k ∧ k < st1.length :=
    fun k hk => region_reach hregX hfrag.id_lo hfrag.id_hi hk
  have hreach_allX : ∀ k, st0.length ≤ k → k < st1.length → Reach stX idE k := by
    intro k hk1 hk2
    refine reach_lift (Edge.Id t) ?_ k (hfrag.reach_all k hk1 hk2)
    intro u hu
    have hur := region_reach hfrag.region hfrag.id_lo hfrag.id_hi hu
    exact Or.inl (hagree1X u hur.2)
  have he : edge_ok stX.length (Edge.Id t) = true := by simp [edge_ok]; omega
  have hidE : idE < stX.length := Nat.lt_of_lt_of_le hfrag.id_hi hlen1X
  obtain ⟨st3, hrun, hlen3, hpos, hneg⟩ :=
    update_outputs_spec stX idE (Edge.Id t) harena he hidE
  have hpos2 : ∀ k, st0.length ≤ k → k < st1.length →
      st3.get? k = (st1.get? k).map (patch_state (Edge.Id t)) := by
    intro k hk1 hk2
    rw [hpos k (hreach_allX k hk1 hk2), hagree1X k hk2]
  have hneg2 : ∀ k, ¬ (st0.length ≤ k ∧ k < st1.length) →
      st3.get? k = stX.get? k := by
    intro k hk
    exact hneg k (fun hr => hk (hreach_region k hr))
  have hreach3 : ∀ k, st0.length ≤ k → k < st1.length → Reach st3 idE k := by
    intro k hk1 hk2
    refine reach_lift (Edge.Id t) ?_ k (hreach_allX k hk1 hk2)
    intro u hu
    exact Or.inr (hpos u hu)
  refine ⟨st3, hrun, hlen3, hpos2, hneg2, hreach3, ?_⟩
  intro k hk1 hk2
  obtain ⟨m, s, hkm, hms, hd⟩ := hfrag.exit_reach k hk1 hk2
  have hmr := region_reach hfrag.region hk1 hk2 hkm
  -- lift the path from `k` to `m` into `st3`
  have hkmX : Reach stX k m := by
    refine reach_lift (Edge.Id t) ?_ m hkm
    intro u hu
    exact Or.inl (hagree1X u (region_reach hfrag.region hk1 hk2 hu).2)
  have hkm3 : Reach st3 k m := by
    refine reach_lift (Edge.Id t) ?_ m hkmX
    intro u hu
    have hur : st0.length ≤ u ∧ u < st1.length := region_reach hregX hk1 hk2 hu
    exact Or.inr (hpos u (hreach_allX u hur.1 hur.2))
  have hm3 : st3.get? m = (st1.get? m).map (patch_state (Edge.Id t)) :=
    hpos2 m hmr.1 hmr.2
  exact ⟨m, hkm3, step_patch_detached hms hd hm3⟩

/-! ### Builder: definitional unfolding lemmas -/

theorem build_any_eq (st : List State) :
    build_expr st Expr.Any =
      Res.ok ((st ++ [State.State ConditionChar.Any Edge.Detached]).length - 1,
        st ++ [State.State ConditionChar.Any Edge.Detached]) := rfl

theorem build_single_eq (st : List State) (c : Char) :
    build_expr st (Expr.Single c) =
      (ConditionChar.one c).bind fun cond =>
        Res.ok ((st ++ [State.State cond Edge.Detached]).length - 1,
          st ++ [State.State cond Edge.Detached]) := rfl

theorem build_class_eq (st : List State) (chars : List Char) :
    build_expr st (Expr.Class chars) =
      (ConditionChar.class chars).bind fun cond =>
        Res.ok ((st ++ [State.State cond Edge.Detached]).length - 1,
          st ++ [State.State cond Edge.Detached]) := rfl

theorem build_sequence_eq (st : List State) (a b : Expr) :
    build_expr st (Expr.Sequence a b) =
      (build_expr st a).bind fun ra =>
      (build_expr ra.2 b).bind fun rb =>
      (update_outputs rb.2 ra.1 (Edge.Id rb.1)).bind fun st3 =>
      Res.ok (ra.1, st3) := rfl

theorem build_optional_eq (st : List State) (e : Expr) :
    build_expr st (Expr.Optional e) =
      (build_expr st e).bind fun re =>
        Res.ok ((re.2 ++ [State.Split (Edge.Id re.1) Edge.Detached]).length - 1,
          re.2 ++ [State.Split (Edge.Id re.1) Edge.Detached]) := rfl

theorem build_oneOrMore_eq (st : List State) (e : Expr) :
    build_expr st (Expr.OneOrMore e) =
      (build_expr st e).bind fun re =>
      (update_outputs (re.2 ++ [State.Split (Edge.Id re.1) Edge.Detached]) re.1
        (Edge.Id ((re.2 ++ [State.Split (Edge.Id re.1) Edge.Detached]).length - 1))).bind
        fun st3 => Res.ok (re.1, st3) := rfl

theorem build_zeroOrMore_eq (st : List State) (e : Expr) :
    build_expr st (Expr.ZeroOrMore e) =
      (build_expr st e).bind fun re =>
      (update_outputs (re.2 ++ [State.Split (Edge.Id re.1) Edge.Detached]) re.1
        (Edge.Id ((re.2 ++ [State.Split (Edge.Id re.1) Edge.Detached]).length - 1))).bind
        fun st3 =>
          Res.ok ((re.2 ++ [State.Split (Edge.Id re.1) Edge.Detached]).length - 1, st3) := rfl

theorem build_or_eq (st : List State) (a b : Expr) :
    build_expr st (Expr.Or a b) =
      (build_expr st a).bind fun ra =>
      (build_expr ra.2 b).bind fun rb =>
        Res.ok ((rb.2 ++ [State.Split (Edge.Id ra.1) (Edge.Id rb.1)]).length - 1,
          rb.2 ++ [State.Split (Edge.Id ra.1) (Edge.Id rb.1)]) := rfl

theorem get?_is_some_of_lt {l : List State} {k : Nat} (h : k < l.length) :
    ∃ s, l.get? k = Option.some s :=
  ⟨l.get ⟨k, h⟩, List.get?_eq_get h⟩

/-- Fragment invariant of a freshly appended single `Match` state with an
`Open` exit. -/
theorem frag_single_state (st0 : List State) (c : ConditionChar)
    (hc : c ≠ ConditionChar.None) :
    FragInv st0 (st0 ++ [State.State c Edge.Detached]) st0.length := by
  have hlen : (st0 ++ [State.State c Edge.Detached]).length = st0.length + 1 := by simp
  have hget : (st0 ++ [State.State c Edge.Detached]).get? st0.length =
      Option.some (State.State c Edge.Detached) := get?_concat_length st0 _
  refine ⟨⟨[State.State c Edge.Detached], rfl⟩, by omega, Nat.le_refl _, by omega,
    ?_, ?_, ?_⟩
  · intro k hk1 hk2 s hgs
    have hkeq : k = st0.length := by omega
    subst hkeq
    rw [hget] at hgs
    injection hgs with hgs
    subst hgs
    cases c with
    | None => exact absurd rfl hc
    | One c2 => rfl
    | Any => rfl
    | Class cs => rfl
  · intro k hk1 hk2
    have hkeq : k = st0.length := by omega
    subst hkeq
    exact Relation.ReflTransGen.refl
  · intro k hk1 hk2
    have hkeq : k = st0.length := by omega
    subst hkeq
    exact ⟨st0.length, State.State c Edge.Detached, Relation.ReflTransGen.refl, hget, by
      cases c <;> rfl⟩

/-- Correctness of the `Sequence` wiring: patching `a`'s open exits with a
link to `b`'s entry yields a fragment entered at `a`'s entry, leaves `b`'s
region (and its open exits) untouched, and restores the full fragment
invariant. -/
theorem frag_seq {st0 st1 st2 : List State} {ia ib : Nat}
    (hfA : FragInv st0 st1 ia) (hfB : FragInv st1 st2 ib)
    (hok2 : arena_ok st2 = true) :
    ∃ st3, update_outputs st2 ia (Edge.Id ib) = Res.ok st3 ∧
      arena_ok st3 = true ∧ FragInv st0 st3 ia ∧ st3.length = st2.length ∧
      (∀ k, st1.length ≤ k → st3.get? k = st2.get? k) ∧
      (∀ k, st0.length ≤ k → k < st1.length →
        st3.get? k = (st1.get? k).map (patch_state (Edge.Id ib))) := by
  have h01 : st0.length < st1.length := hfA.len_lt
  have h12 : st1.length < st2.length := hfB.len_lt
  have hia1 : ia < st1.length := hfA.id_hi
  have hia0 : st0.length ≤ ia := hfA.id_lo
  have hibLo : st1.length ≤ ib := hfB.id_lo
  have hibHi : ib < st2.length := hfB.id_hi
  have hagree12 : ∀ k, k < st1.length → st2.get? k = st1.get? k := by
    intro k hk
    obtain ⟨L, hL⟩ := hfB.prefix_eq
    rw [hL]
    exact get?_append_left hk
  obtain ⟨st3, hrun, hlen3, hpos, hneg, hrch, hexit⟩ :=
    patch_frag hfA hfB.prefix_eq hok2 hfB.id_hi
  have huntouched : ∀ k, st1.length ≤ k → st3.get? k = st2.get? k := by
    intro k hk
    exact hneg k (fun h => absurd h.2 (by omega))
  have hreach_b : ∀ k, Reach st2 ib k → st1.length ≤ k ∧ k < st2.length :=
    fun k hk => region_reach hfB.region hfB.id_lo hfB.id_hi hk
  have hlift_b : ∀ j k, Reach st2 j k →
      (st1.length ≤ j → j < st2.length → Reach st3 j k) := by
    intro j k hk hj1 hj2
    refine reach_lift (Edge.Id ib) ?_ k hk
    intro u hu
    exact Or.inl (huntouched u (region_reach hfB.region hj1 hj2 hu).1)
  have hib3 : Reach st3 ia ib := by
    obtain ⟨m, hm, hstep⟩ := hexit ia hfA.id_lo hfA.id_hi
    exact Relation.ReflTransGen.tail hm hstep
  have hib2 : edge_ok st2.length (Edge.Id ib) = true := by
    have := hfB.id_hi
    simp [edge_ok]
    omega
  refine ⟨st3, hrun, ?_, ?_, hlen3, huntouched, hpos⟩
  · refine arena_ok_of_agree hlen3 ?_ hok2 hib2
    intro k
    by_cases hk : st0.length ≤ k ∧ k < st1.length
    · refine Or.inr ?_
      rw [hpos k hk.1 hk.2, hagree12 k hk.2]
    · exact Or.inl (hneg k hk)
  · refine ⟨?_, by omega, hfA.id_lo, by omega, ?_, ?_, ?_⟩
    · -- prefix preservation
      refine prefix_of_agree (by omega) ?_
      intro k hk
      rw [hneg k (by omega), hagree12 k (by omega)]
      obtain ⟨LA, hLA⟩ := hfA.prefix_eq
      rw [hLA]
      exact get?_append_left hk
    · -- region invariant
      intro k hk1 hk2 s hgs
      by_cases hk : k < st1.length
      · rw [hpos k hk1 hk] at hgs
        obtain ⟨s0, hs0⟩ := get?_is_some_of_lt hk
        rw [hs0] at hgs
        injection hgs with hgs
        subst hgs
        have hr0 := hfA.region k hk1 hk s0 hs0
        exact patch_state_region hr0 (by omega) (by omega) (by omega)
      · have hk1b : st1.length ≤ k := by omega
        rw [huntouched k hk1b] at hgs
        have hr0 := hfB.region k hk1b (by omega) s hgs
        exact state_ok_region_mono (by omega) (by omega) hr0
    · -- all region states reachable from `a`'s entry
      intro k hk1 hk2
      by_cases hk : k < st1.length
      · exact hrch k hk1 hk
      · have hbk : Reach st2 ib k := hfB.reach_all k (by omega) (by omega)
        exact Relation.ReflTransGen.trans hib3
          (hlift_b ib k hbk hfB.id_lo hfB.id_hi)
    · -- open exits reachable: now through `b`
      intro k hk1 hk2
      by_cases hk : k < st1.length
      · obtain ⟨m, hkm, hstep⟩ := hexit k hk1 hk
        have hkib : Reach st3 k ib := Relation.ReflTransGen.tail hkm hstep
        obtain ⟨m2, s2, hm2, hgs2, hd2⟩ := hfB.exit_reach ib hfB.id_lo hfB.id_hi
        have hm2r := hreach_b m2 hm2
        refine ⟨m2, s2, Relation.ReflTransGen.trans hkib
          (hlift_b ib m2 hm2 hfB.id_lo hfB.id_hi), ?_, hd2⟩
        rw [huntouched m2 hm2r.1]
        exact hgs2
      · obtain ⟨m2, s2, hm2, hgs2, hd2⟩ := hfB.exit_reach k (by omega) (by omega)
        have hm2r := hreach_b m2 (Relation.ReflTransGen.trans (hfB.reach_all k (by omega) (by omega)) hm2)
        refine ⟨m2, s2, hlift_b k m2 hm2 (by omega) (by omega), ?_, hd2⟩
        rw [huntouched m2 hm2r.1]
        exact hgs2

/-- Correctness of the repetition wiring shared by `OneOrMore` and
`ZeroOrMore`: append a `Split` looping back to the fragment entry, patch the
fragment's open exits into the `Split`; the resulting fragment satisfies the
invariant from either entry point (the fragment entry for `OneOrMore`, the
`Split` for `ZeroOrMore`). -/
theorem frag_loop {st0 st1 : List State} {idE : Nat}
    (hfrag : FragInv st0 st1 idE) (hok1 : arena_ok st1 = true) :
    ∃ st3, update_outputs (st1 ++ [State.Split (Edge.Id idE) Edge.Detached]) idE
        (Edge.Id st1.length) = Res.ok st3 ∧
      arena_ok st3 = true ∧
      FragInv st0 st3 idE ∧
      FragInv st0 st3 st1.length ∧
      st3.length = st1.length + 1 := by
  have h01 : st0.length < st1.length := hfrag.len_lt
  have hIdLo : st0.length ≤ idE := hfrag.id_lo
  have hIdHi : idE < st1.length := hfrag.id_hi
  set sp : State := State.Split (Edge.Id idE) Edge.Detached with hsp_def
  have hspok : state_ok (st1.length + 1) sp = true := by
    simp [hsp_def, state_ok, edge_ok]
    omega
  have hokX : arena_ok (st1 ++ [sp]) = true := arena_ok_append_one hok1 hspok
  have hlenX : (st1 ++ [sp]).length = st1.length + 1 := by simp
  have htX : st1.length < (st1 ++ [sp]).length := by simp
  obtain ⟨st3, hrun, hlen3, hpos, hneg, hrch, hexit⟩ :=
    patch_frag hfrag ⟨[sp], rfl⟩ hokX htX
  have hgetsp : (st1 ++ [sp]).get? st1.length = Option.some sp := get?_concat_length st1 sp
  have hsp3 : st3.get? st1.length = Option.some sp := by
    rw [hneg st1.length (fun h => absurd h.2 (by omega))]
    exact hgetsp
  have hlen3b : st3.length = st1.length + 1 := by omega
  have hagree1X : ∀ k, k < st1.length → (st1 ++ [sp]).get? k = st1.get? k := by
    intro k hk
    exact get?_append_left hk
  have hstepsp : Step st3 st1.length idE := (step_split_iff hsp3).mpr (Or.inl rfl)
  have hreach_sp : ∀ k, st0.length ≤ k → k < st1.length + 1 → Reach st3 st1.length k := by
    intro k hk1 hk2
    by_cases hk : k < st1.length
    · exact Relation.ReflTransGen.head hstepsp (hrch k hk1 hk)
    · have : k = st1.length := by omega
      subst this
      exact Relation.ReflTransGen.refl
  have hreach_e : ∀ k, st0.length ≤ k → k < st1.length + 1 → Reach st3 idE k := by
    intro k hk1 hk2
    by_cases hk : k < st1.length
    · exact hrch k hk1 hk
    · have hkeq : k = st1.length := by omega
      subst hkeq
      obtain ⟨m, hm, hstep⟩ := hexit idE hIdLo hIdHi
      exact Relation.ReflTransGen.tail hm hstep
  have hexit3 : ∀ k, st0.length ≤ k → k < st1.length + 1 →
      ∃ m s, Reach st3 k m ∧ st3.get? m = Option.some s ∧ has_detached s = true := by
    intro k hk1 hk2
    refine ⟨st1.length, sp, ?_, hsp3, by simp [hsp_def, has_detached]⟩
    by_cases hk : k < st1.length
    · obtain ⟨m, hm, hstep⟩ := hexit k hk1 hk
      exact Relation.ReflTransGen.tail hm hstep
    · have : k = st1.length := by omega
      subst this
      exact Relation.ReflTransGen.refl
  have hpre : ∃ L, st3 = st0 ++ L := by
    refine prefix_of_agree (by omega) ?_
    intro k hk
    rw [hneg k (by omega), hagree1X k (by omega)]
    obtain ⟨LA, hLA⟩ := hfrag.prefix_eq
    rw [hLA]
    exact get?_append_left hk
  have hregion : RegionOk st0.length st3.length st3 := by
    intro k hk1 hk2 s hgs
    rw [hlen3b] at hk2
    by_cases hk : k < st1.length
    · rw [hpos k hk1 hk] at hgs
      obtain ⟨s0, hs0⟩ := get?_is_some_of_lt hk
      rw [hs0] at hgs
      injection hgs with hgs
      subst hgs
      have hr0 := hfrag.region k hk1 hk s0 hs0
      refine patch_state_region hr0 (by omega) (by omega) (by omega)
    · have hkeq : k = st1.length := by omega
      subst hkeq
      rw [hsp3] at hgs
      injection hgs with hgs
      subst hgs
      simp [hsp_def, state_ok_region, edge_ok_region]
      omega
  have hokr : arena_ok st3 = true := by
    have heX : edge_ok (st1 ++ [sp]).length (Edge.Id st1.length) = true := by
      simp [edge_ok]
    refine arena_ok_of_agree hlen3 ?_ hokX heX
    intro k
    by_cases hk : st0.length ≤ k ∧ k < st1.length
    · refine Or.inr ?_
      rw [hpos k hk.1 hk.2, hagree1X k hk.2]
    · exact Or.inl (hneg k hk)
  refine ⟨st3, hrun, hokr, ?_, ?_, hlen3b⟩
  · exact ⟨hpre, by omega, hIdLo, by omega,
      (by rw [hlen3b] at hregion ⊢; exact hregion : RegionOk st0.length st3.length st3),
      (by rw [hlen3b]; exact hreach_e), (by rw [hlen3b]; exact hexit3)⟩
  · exact ⟨hpre, by omega, by omega, by omega,
      (by rw [hlen3b] at hregion ⊢; exact hregion : RegionOk st0.length st3.length st3),
      (by rw [hlen3b]; exact hreach_sp), (by rw [hlen3b]; exact hexit3)⟩

/-- Correctness of the `Optional` wiring: appending a `Split` into the
fragment entry with an `Open` second branch (no patching) yields a fragment
entered at the `Split`. -/
theorem frag_opt {st0 st1 : List State} {idE : Nat}
    (hfrag : FragInv st0 st1 idE) :
    FragInv st0 (st1 ++ [State.Split (Edge.Id idE) Edge.Detached]) st1.length := by
  have h01 : st0.length < st1.length := hfrag.len_lt
  have hIdLo : st0.length ≤ idE := hfrag.id_lo
  have hIdHi : idE < st1.length := hfrag.id_hi
  set sp : State := State.Split (Edge.Id idE) Edge.Detached with hsp_def
  have hlenX : (st1 ++ [sp]).length = st1.length + 1 := by simp
  have hgetsp : (st1 ++ [sp]).get? st1.length = Option.some sp := get?_concat_length st1 sp
  have hagree : ∀ k, k < st1.length → (st1 ++ [sp]).get? k = st1.get? k := by
    intro k hk
    exact get?_append_left hk
  have hlift : ∀ j k, Reach st1 j k → st0.length ≤ j → j < st1.length →
      Reach (st1 ++ [sp]) j k := by
    intro j k hk hj1 hj2
    refine reach_lift Edge.Detached ?_ k hk
    intro u hu
    exact Or.inl (hagree u (region_reach hfrag.region hj1 hj2 hu).2)
  have hstepsp : Step (st1 ++ [sp]) st1.length idE :=
    (step_split_iff hgetsp).mpr (Or.inl rfl)
  refine ⟨?_, by omega, by omega, by omega, ?_, ?_, ?_⟩
  · obtain ⟨LA, hLA⟩ := hfrag.prefix_eq
    exact ⟨LA ++ [sp], by rw [hLA, List.append_assoc]⟩
  · intro k hk1 hk2 s hgs
    rw [hlenX] at hk2
    by_cases hk : k < st1.length
    · rw [hagree k hk] at hgs
      exact state_ok_region_mono (Nat.le_refl _) (by omega)
        (hfrag.region k hk1 hk s hgs)
    · have hkeq : k = st1.length := by omega
      subst hkeq
      rw [hgetsp] at hgs
      injection hgs with hgs
      subst hgs
      simp [hsp_def, state_ok_region, edge_ok_region]
      omega
  · intro k hk1 hk2
    rw [hlenX] at hk2
    by_cases hk : k < st1.length
    · exact Relation.ReflTransGen.head hstepsp
        (hlift idE k (hfrag.reach_all k hk1 hk) hIdLo hIdHi)
    · have hkeq : k = st1.length := by omega
      subst hkeq
      exact Relation.ReflTransGen.refl
  · intro k hk1 hk2
    rw [hlenX] at hk2
    by_cases hk : k < st1.length
    · obtain ⟨m, s, hm, hgs, hd⟩ := hfrag.exit_reach k hk1 hk
      have hmr := region_reach hfrag.region hk1 hk hm
      refine ⟨m, s, hlift k m hm hk1 hk, ?_, hd⟩
      rw [hagree m hmr.2]
      exact hgs
    · have hkeq : k = st1.length := by omega
      subst hkeq
      exact ⟨st1.length, sp, Relation.ReflTransGen.refl, hgetsp, by
        simp [hsp_def, has_detached]⟩

/-- Correctness of the `Or` wiring: appending a `Split` linking to both
fragment entries yields a fragment entered at the `Split`; both fragments'
open exits stay open. -/
theorem frag_or {st0 st1 st2 : List State} {ia ib : Nat}
    (hfA : FragInv st0 st1 ia) (hfB : FragInv st1 st2 ib) :
    FragInv st0 (st2 ++ [State.Split (Edge.Id ia) (Edge.Id ib)]) st2.length := by
  have h01 : st0.length < st1.length := hfA.len_lt
  have h12 : st1.length < st2.length := hfB.len_lt
  have hia1 : ia < st1.length := hfA.id_hi
  have hia0 : st0.length ≤ ia := hfA.id_lo
  have hibLo : st1.length ≤ ib := hfB.id_lo
  have hibHi : ib < st2.length := hfB.id_hi
  set sp : State := State.Split (Edge.Id ia) (Edge.Id ib) with hsp_def
  have hlenX : (st2 ++ [sp]).length = st2.length + 1 := by simp
  have hgetsp : (st2 ++ [sp]).get? st2.length = Option.some sp := get?_concat_length st2 sp
  have hagree2X : ∀ k, k < st2.length → (st2 ++ [sp]).get? k = st2.get? k := by
    intro k hk
    exact get?_append_left hk
  have hagree12 : ∀ k, k < st1.length → st2.get? k = st1.get? k := by
    intro k hk
    obtain ⟨L, hL⟩ := hfB.prefix_eq
    rw [hL]
    exact get?_append_left hk
  have hliftA : ∀ j k, Reach st1 j k → st0.length ≤ j → j < st1.length →
      Reach (st2 ++ [sp]) j k := by
    intro j k hk hj1 hj2
    refine reach_lift Edge.Detached ?_ k hk
    intro u hu
    have hur := region_reach hfA.region hj1 hj2 hu
    refine Or.inl ?_
    rw [hagree2X u (by omega), hagree12 u hur.2]
  have hliftB : ∀ j k, Reach st2 j k → st1.length ≤ j → j < st2.length →
      Reach (st2 ++ [sp]) j k := by
    intro j k hk hj1 hj2
    refine reach_lift Edge.Detached ?_ k hk
    intro u hu
    have hur := region_reach hfB.region hj1 hj2 hu
    exact Or.inl (hagree2X u hur.2)
  have hstepA : Step (st2 ++ [sp]) st2.length ia :=
    (step_split_iff hgetsp).mpr (Or.inl rfl)
  have hstepB : Step (st2 ++ [sp]) st2.length ib :=
    (step_split_iff hgetsp).mpr (Or.inr rfl)
  refine ⟨?_, by omega, by omega, by omega, ?_, ?_, ?_⟩
  · obtain ⟨LA, hLA⟩ := hfA.prefix_eq
    obtain ⟨LB, hLB⟩ := hfB.prefix_eq
    exact ⟨LA ++ LB ++ [sp], by
      rw [hLB, hLA]
      simp [List.append_assoc]⟩
  · intro k hk1 hk2 s hgs
    rw [hlenX] at hk2
    by_cases hk : k < st1.length
    · rw [hagree2X k (by omega), hagree12 k hk] at hgs
      exact state_ok_region_mono (Nat.le_refl _) (by omega)
        (hfA.region k hk1 hk s hgs)
    · by_cases hk2b : k < st2.length
      · rw [hagree2X k hk2b] at hgs
        exact state_ok_region_mono (by omega) (by omega)
          (hfB.region k (by omega) hk2b s hgs)
      · have hkeq : k = st2.length := by omega
        subst hkeq
        rw [hgetsp] at hgs
        injection hgs with hgs
        subst hgs
        simp [hsp_def, state_ok_region, edge_ok_region]
        omega
  · intro k hk1 hk2
    rw [hlenX] at hk2
    by_cases hk : k < st1.length
    · exact Relation.ReflTransGen.head hstepA
        (hliftA ia k (hfA.reach_all k hk1 hk) hia0 hia1)
    · by_cases hk2b : k < st2.length
      · exact Relation.ReflTransGen.head hstepB
          (hliftB ib k (hfB.reach_all k (by omega) hk2b) hibLo hibHi)
      · have hkeq : k = st2.length := by omega
        subst hkeq
        exact Relation.ReflTransGen.refl
  · intro k hk1 hk2
    rw [hlenX] at hk2
    by_cases hk : k < st1.length
    · obtain ⟨m, s, hm, hgs, hd⟩ := hfA.exit_reach k hk1 hk
      have hmr := region_reach hfA.region hk1 hk hm
      refine ⟨m, s, hliftA k m hm hk1 hk, ?_, hd⟩
      rw [hagree2X m (by omega), hagree12 m hmr.2]
      exact hgs
    · by_cases hk2b : k < st2.length
      · obtain ⟨m, s, hm, hgs, hd⟩ := hfB.exit_reach k (by omega) hk2b
        have hmr := region_reach hfB.region (by omega) hk2b hm
        refine ⟨m, s, hliftB k m hm (by omega) hk2b, ?_, hd⟩
        rw [hagree2X m hmr.2]
        exact hgs
      · have hkeq : k = st2.length := by omega
        subst hkeq
        obtain ⟨m, s, hm, hgs, hd⟩ := hfA.exit_reach ia hia0 hia1
        have hmr := region_reach hfA.region hia0 hia1 hm
        refine ⟨m, s, Relation.ReflTransGen.head hstepA (hliftA ia m hm hia0 hia1), ?_, hd⟩
        rw [hagree2X m (by omega), hagree12 m hmr.2]
        exact hgs

/-- Main builder theorem: on a well-formed arena, `build_expr` succeeds and
establishes the fragment invariant exactly when all literal/class characters
are single-byte; otherwise it panics. -/
theorem build_spec : ∀ (expr : Expr) (st0 : List State), arena_ok st0 = true →
    (good_chars expr = true →
      ∃ id st, build_expr st0 expr = Res.ok (id, st) ∧ FragInv st0 st id ∧
        arena_ok st = true) ∧
    (good_chars expr = false → build_expr st0 expr = Res.panicked) := by
  intro expr
  induction expr with
  | Any =>
    intro st0 hok
    constructor
    · intro _
      refine ⟨st0.length, st0 ++ [State.State ConditionChar.Any Edge.Detached], ?_,
        frag_single_state st0 ConditionChar.Any (by simp), arena_ok_append_one hok rfl⟩
      rw [build_any_eq]
      simp
    · intro hbad
      simp [good_chars] at hbad
  | Single c =>
    intro st0 hok
    constructor
    · intro hgood
      have hc : c.toNat < 128 := by simpa [good_chars] using hgood
      refine ⟨st0.length, st0 ++ [State.State (ConditionChar.One c.toNat) Edge.Detached], ?_,
        frag_single_state st0 (ConditionChar.One c.toNat) (by simp),
        arena_ok_append_one hok rfl⟩
      rw [build_single_eq]
      simp [ConditionChar.one, to_ascii, hc, Res.map, Res.bind]
    · intro hbad
      have hc : ¬ c.toNat < 128 := by simpa [good_chars] using hbad
      rw [build_single_eq]
      simp [ConditionChar.one, to_ascii, hc, Res.map, Res.bind]
  | Class chars =>
    intro st0 hok
    constructor
    · intro hgood
      have hc : chars.all (fun c => decide (c.toNat < 128)) = true := by
        simpa [good_chars] using hgood
      refine ⟨st0.length,
        st0 ++ [State.State (ConditionChar.Class (chars.map Char.toNat)) Edge.Detached], ?_,
        frag_single_state st0 (ConditionChar.Class (chars.map Char.toNat)) (by simp),
        arena_ok_append_one hok rfl⟩
      rw [build_class_eq]
      simp [ConditionChar.class, mapToAscii_good hc, Res.map, Res.bind]
    · intro hbad
      have hc : ¬ chars.all (fun c => decide (c.toNat < 128)) = true := by
        simpa [good_chars] using hbad
      rw [build_class_eq]
      simp [ConditionChar.class, mapToAscii_bad hc, Res.map, Res.bind]
  | Sequence a b iha ihb =>
    intro st0 hok
    constructor
    · intro hgood
      have hg : good_chars a = true ∧ good_chars b = true := by
        simpa [good_chars] using hgood
      obtain ⟨ia, st1, hba, hfA, hokA⟩ := (iha st0 hok).1 hg.1
      obtain ⟨ib, st2, hbb, hfB, hokB⟩ := (ihb st1 hokA).1 hg.2
      obtain ⟨st3, hrun, hok3, hfrag3, _, _, _⟩ := frag_seq hfA hfB hokB
      refine ⟨ia, st3, ?_, hfrag3, hok3⟩
      rw [build_sequence_eq, hba]
      simp only [Res.bind]
      rw [hbb]
      simp only [Res.bind]
      rw [hrun]
    · intro hbad
      by_cases hga : good_chars a = true
      · have hgb : good_chars b = false := by
          revert hbad
          simp [good_chars, hga]
        obtain ⟨ia, st1, hba, _, hokA⟩ := (iha st0 hok).1 hga
        have hbb := (ihb st1 hokA).2 hgb
        rw [build_sequence_eq, hba]
        simp only [Res.bind]
        rw [hbb]
      · have hga2 : good_chars a = false := by
          revert hga
          cases good_chars a <;> simp
        rw [build_sequence_eq, (iha st0 hok).2 hga2]
        rfl
  | Optional e ihe =>
    intro st0 hok
    constructor
    · intro hgood
      have hge : good_chars e = true := by simpa [good_chars] using hgood
      obtain ⟨ie, st1, hbe, hfE, hokE⟩ := (ihe st0 hok).1 hge
      have hspok : state_ok (st1.length + 1)
          (State.Split (Edge.Id ie) Edge.Detached) = true := by
        have := hfE.id_hi
        simp [state_ok, edge_ok]
        omega
      refine ⟨st1.length, st1 ++ [State.Split (Edge.Id ie) Edge.Detached], ?_,
        frag_opt hfE, arena_ok_append_one hokE hspok⟩
      rw [build_optional_eq, hbe]
      simp only [Res.bind]
      simp
    · intro hbad
      have hge : good_chars e = false := by simpa [good_chars] using hbad
      rw [build_optional_eq, (ihe st0 hok).2 hge]
      rfl
  | OneOrMore e ihe =>
    intro st0 hok
    constructor
    · intro hgood
      have hge : good_chars e = true := by simpa [good_chars] using hgood
      obtain ⟨ie, st1, hbe, hfE, hokE⟩ := (ihe st0 hok).1 hge
      obtain ⟨st3, hrun, hok3, hfrag3, _, _⟩ := frag_loop hfE hokE
      refine ⟨ie, st3, ?_, hfrag3, hok3⟩
      rw [build_oneOrMore_eq, hbe]
      simp only [Res.bind]
      have hlen : (st1 ++ [State.Split (Edge.Id ie) Edge.Detached]).length - 1 =
          st1.length := by simp
      rw [hlen, hrun]
    · intro hbad
      have hge : good_chars e = false := by simpa [good_chars] using hbad
      rw [build_oneOrMore_eq, (ihe st0 hok).2 hge]
      rfl
  | ZeroOrMore e ihe =>
    intro st0 hok
    constructor
    · intro hgood
      have hge : good_chars e = true := by simpa [good_chars] using hgood
      obtain ⟨ie, st1, hbe, hfE, hokE⟩ := (ihe st0 hok).1 hge
      obtain ⟨st3, hrun, hok3, _, hfrag3, _⟩ := frag_loop hfE hokE
      refine ⟨st1.length, st3, ?_, hfrag3, hok3⟩
      rw [build_zeroOrMore_eq, hbe]
      simp only [Res.bind]
      have hlen : (st1 ++ [State.Split (Edge.Id ie) Edge.Detached]).length - 1 =
          st1.length := by simp
      rw [hlen, hrun]
    · intro hbad
      have hge : good_chars e = false := by simpa [good_chars] using hbad
      rw [build_zeroOrMore_eq, (ihe st0 hok).2 hge]
      rfl
  | Or a b iha ihb =>
    intro st0 hok
    constructor
    · intro hgood
      have hg : good_chars a = true ∧ good_chars b = true := by
        simpa [good_chars] using hgood
      obtain ⟨ia, st1, hba, hfA, hokA⟩ := (iha st0 hok).1 hg.1
      obtain ⟨ib, st2, hbb, hfB, hokB⟩ := (ihb st1 hokA).1 hg.2
      have hspok : state_ok (st2.length + 1)
          (State.Split (Edge.Id ia) (Edge.Id ib)) = true := by
        have h1 := hfA.id_hi
        have h2 := hfB.id_hi
        have h3 := hfB.len_lt
        simp [state_ok, edge_ok]
        omega
      refine ⟨st2.length, st2 ++ [State.Split (Edge.Id ia) (Edge.Id ib)], ?_,
        frag_or hfA hfB, arena_ok_append_one hokB hspok⟩
      rw [build_or_eq, hba]
      simp only [Res.bind]
      rw [hbb]
      simp only [Res.bind]
      simp
    · intro hbad
      by_cases hga : good_chars a = true
      · have hgb : good_chars b = false := by
          revert hbad
          simp [good_chars, hga]
        obtain ⟨ia, st1, hba, _, hokA⟩ := (iha st0 hok).1 hga
        have hbb := (ihb st1 hokA).2 hgb
        rw [build_or_eq, hba]
        simp only [Res.bind]
        rw [hbb]
      · have hga2 : good_chars a = false := by
          revert hga
          cases good_chars a <;> simp
        rw [build_or_eq, (iha st0 hok).2 hga2]
        rfl

/-! ### The compiled automaton's invariants -/

theorem from_expr_eq (expr : Expr) :
    from_expr expr =
      (build_expr [] expr).bind fun r =>
      (update_outputs r.2 r.1 Edge.End).bind fun sts =>
      Res.ok { start := r.1, states := sts } := rfl

theorem patch_end_no_detached (s : State) :
    has_detached (patch_state Edge.End s) = false := by
  cases s with
  | State c o => cases o <;> rfl
  | Split o1 o2 => cases o1 <;> cases o2 <;> rfl

theorem cond_ok_patch (e : Edge) (s : State) :
    cond_ok (patch_state e s) = cond_ok s := by
  cases s with
  | State c o => cases c <;> rfl
  | Split o1 o2 => rfl

theorem has_end_patch {s : State} (h : has_detached s = true) :
    has_end (patch_state Edge.End s) = true := by
  cases s with
  | State c o =>
    cases o with
    | Detached => rfl
    | Id j => simp [has_detached] at h
    | End => rfl
  | Split o1 o2 =>
    cases o1 <;> cases o2 <;> first | rfl | simp [has_detached] at h

theorem cond_ok_of_region {lo hi : Nat} {s : State}
    (h : state_ok_region lo hi s = true) : cond_ok s = true := by
  cases s with
  | State c o =>
    cases c with
    | None => simp [state_ok_region] at h
    | One c2 => rfl
    | Any => rfl
    | Class cs => rfl
  | Split o1 o2 => rfl

/-- Invariants of every automaton produced by `from_expr`. -/
structure BuiltInv (nfa : NFA) : Prop where
  start_lt : nfa.start < nfa.states.length
  ok : arena_ok nfa.states = true
  no_open : ∀ s, s ∈ nfa.states → has_detached s = false
  conds : ∀ s, s ∈ nfa.states → cond_ok s = true
  reach_start : ∀ k, k < nfa.states.length → Reach nfa.states nfa.start k
  end_reach : ∀ k, k < nfa.states.length →
    ∃ m s, Reach nfa.states k m ∧ nfa.states.get? m = Option.some s ∧
      has_end s = true

theorem from_expr_inv (expr : Expr) (nfa : NFA)
    (h : from_expr expr = Res.ok nfa) : BuiltInv nfa := by
  by_cases hgood : good_chars expr = true
  · obtain ⟨id, st, hb, hf, hok⟩ := (build_spec expr [] rfl).1 hgood
    have hid : id < st.length := hf.id_hi
    obtain ⟨st2, hrun, hlen2, hpos, hneg⟩ :=
      update_outputs_spec st id Edge.End hok rfl hid
    have hval : nfa = { start := id, states := st2 } := by
      rw [from_expr_eq, hb] at h
      simp only [Res.bind] at h
      rw [hrun] at h
      simp only [Res.bind] at h
      injection h with h
      exact h.symm
    subst hval
    have hlo : ([] : List State).length = 0 := rfl
    have hreach_all : ∀ k, k < st.length → Reach st id k := by
      intro k hk
      exact hf.reach_all k (by omega) hk
    have hreachlt : ∀ j k, j < st.length → Reach st j k → k < st.length := by
      intro j k hj hr
      exact (region_reach hf.region (by omega) (by rw [hlo] at *; omega) hr).2
    have hpatched : ∀ k, k < st.length →
        st2.get? k = (st.get? k).map (patch_state Edge.End) := by
      intro k hk
      exact hpos k (hreach_all k hk)
    refine ⟨by simpa [hlen2] using hid, ?_, ?_, ?_, ?_, ?_⟩
    · refine arena_ok_of_agree hlen2 ?_ hok
        (rfl : edge_ok st.length Edge.End = true)
      intro k
      by_cases hk : k < st.length
      · exact Or.inr (hpatched k hk)
      · refine Or.inl (hneg k ?_)
        intro hr
        exact hk (hreachlt id k hid hr)
    · intro s hmem
      obtain ⟨i, hi⟩ := List.mem_iff_get.mp hmem
      have hgs : st2.get? i.val = Option.some s := by
        rw [List.get?_eq_get i.isLt]
        exact congrArg Option.some hi
      have hilt : i.val < st.length := by
        have h2 : i.val < st2.length := i.isLt
        omega
      rw [hpatched i.val hilt] at hgs
      obtain ⟨s0, hs0⟩ := get?_is_some_of_lt hilt
      rw [hs0] at hgs
      injection hgs with hgs
      rw [← hgs]
      exact patch_end_no_detached s0
    · intro s hmem
      obtain ⟨i, hi⟩ := List.mem_iff_get.mp hmem
      have hgs : st2.get? i.val = Option.some s := by
        rw [List.get?_eq_get i.isLt]
        exact congrArg Option.some hi
      have hilt : i.val < st.length := by
        have h2 : i.val < st2.length := i.isLt
        omega
      rw [hpatched i.val hilt] at hgs
      obtain ⟨s0, hs0⟩ := get?_is_some_of_lt hilt
      rw [hs0] at hgs
      injection hgs with hgs
      rw [← hgs, cond_ok_patch]
      exact cond_ok_of_region (hf.region i.val (by omega) hilt s0 hs0)
    · intro k hk
      have hk2 : k < st.length := by
        have h2 : k < st2.length := hk
        omega
      refine reach_lift Edge.End ?_ k (hreach_all k hk2)
      intro u hu
      exact Or.inr (hpatched u (hreachlt id u hid hu))
    · intro k hk
      have hk2 : k < st.length := by
        have h2 : k < st2.length := hk
        omega
      obtain ⟨m, s0, hm, hgs0, hd0⟩ := hf.exit_reach k (by omega) hk2
      have hmlt : m < st.length := hreachlt k m hk2 hm
      have hm2 : Reach st2 k m := by
        refine reach_lift Edge.End ?_ m hm
        intro u hu
        exact Or.inr (hpatched u (hreachlt k u hk2 hu))
      refine ⟨m, patch_state Edge.End s0, hm2, ?_, has_end_patch hd0⟩
      rw [hpatched m hmlt, hgs0]
      rfl
  · have hbad : good_chars expr = false := by
      revert hgood
      cases good_chars expr <;> simp
    have hb := (build_spec expr [] rfl).2 hbad
    rw [from_expr_eq, hb] at h
    cases h

/-! ### Concrete automata used by the claim theorems -/

/-- The syntax tree of `(a*)*`: nested repetition. -/
def exprZZ : Expr := Expr.ZeroOrMore (Expr.ZeroOrMore (Expr.Single 'a'))

/-- The automaton `from_expr` compiles `(a*)*` to.  States 1 and 2 form a
purely-epsilon cycle (both are `Split` states linking to each other). -/
def nfaZZ : NFA :=
  { start := 2,
    states := [State.State (ConditionChar.One 97) (Edge.Id 1),
               State.Split (Edge.Id 0) (Edge.Id 2),
               State.Split (Edge.Id 1) Edge.End] }

/-- The automaton `from_expr` compiles `'a'` to. -/
def nfaA : NFA :=
  { start := 0, states := [State.State (ConditionChar.One 97) Edge.End] }

theorem from_expr_exprZZ : from_expr exprZZ = Res.ok nfaZZ := by decide

theorem from_expr_single_a : from_expr (Expr.Single 'a') = Res.ok nfaA := by decide

/-- On `nfaZZ`, the priority recursion through the epsilon cycle between
states 1 and 2 exhausts any amount of fuel: the Rust recursion diverges. -/
theorem zz_fuelOut : ∀ f : Nat,
    get_transition_priority_keyF nfaZZ f ConditionChar.None (Edge.Id 1) = Res.fuelOut ∧
    get_transition_priority_keyF nfaZZ f ConditionChar.None (Edge.Id 2) = Res.fuelOut := by
  have hzero : ∀ f : Nat,
      get_transition_priority_keyF nfaZZ f ConditionChar.None (Edge.Id 0) = Res.fuelOut ∨
      get_transition_priority_keyF nfaZZ f ConditionChar.None (Edge.Id 0) = Res.ok 97 := by
    intro f
    cases f with
    | zero => exact Or.inl rfl
    | succ f =>
      refine Or.inr ?_
      rw [tpk_unfold_state nfaZZ f 0 (State.State (ConditionChar.One 97) (Edge.Id 1))
        (by decide), gpk_state, tpk_one]
  intro f
  induction f with
  | zero => exact ⟨rfl, rfl⟩
  | succ f ih =>
    constructor
    · rw [tpk_unfold_state nfaZZ f 1 (State.Split (Edge.Id 0) (Edge.Id 2)) (by decide),
        gpk_split, ih.2]
      cases hzero f with
      | inl h => rw [h]; rfl
      | inr h => rw [h]; rfl
    · rw [tpk_unfold_state nfaZZ f 2 (State.Split (Edge.Id 1) Edge.End) (by decide),
        gpk_split, ih.1]
      rfl

theorem nfaA_eps_empty : ∀ a b : Nat, ¬ epsStep nfaA.states a b := by
  intro a b h
  unfold epsStep epsStepB at h
  match a, h with
  | 0, h => exact Bool.noConfusion h
  | Nat.succ a, h => exact Bool.noConfusion h

theorem nfaA_acyclic : ∀ a : Nat, ¬ Relation.TransGen (epsStep nfaA.states) a a := by
  intro a h
  cases h with
  | single hr => exact nfaA_eps_empty _ _ hr
  | tail _ hr => exact nfaA_eps_empty _ _ hr

/-! ### Epsilon-cycle analysis -/

theorem chain_last_mem {r : Nat → Nat → Prop} :
    ∀ (start : Nat) (l : List Nat) (z : Nat),
      List.Chain r start (l ++ [z]) →
      ∀ x, x ∈ start :: l → ∃ y, y ∈ (start :: l) ++ [z] ∧ r x y := by
  intro start l
  induction l generalizing start with
  | nil =>
    intro z hchain x hx
    have hx2 : x = start := by simpa using hx
    subst hx2
    cases hchain with
    | cons hr _ => exact ⟨z, by simp, hr⟩
  | cons b l2 ih =>
    intro z hchain x hx
    cases hchain with
    | cons hr htail =>
      cases List.mem_cons.mp hx with
      | inl hx2 =>
        subst hx2
        exact ⟨b, by simp, hr⟩
      | inr hx2 =>
        obtain ⟨y, hy, hry⟩ := ih b z htail x hx2
        refine ⟨y, ?_, hry⟩
        simp at hy ⊢
        tauto

/-- In a cyclic epsilon chain, every member has an epsilon successor inside
the cycle. -/
theorem cycle_mem_next {r : Nat → Nat → Prop} {a : Nat} {rest : List Nat}
    (hchain : List.Chain r a (rest ++ [a])) :
    ∀ x, x ∈ a :: rest → ∃ y, y ∈ a :: rest ∧ r x y := by
  intro x hx
  obtain ⟨y, hy, hry⟩ := chain_last_mem a rest a hchain x hx
  refine ⟨y, ?_, hry⟩
  rcases List.mem_append.mp hy with h2 | h2
  · exact h2
  · rw [List.mem_singleton.mp h2]
    exact List.mem_cons_self a rest

/-- On an arena whose conditions are all real (never the `None` sentinel),
an epsilon step can only originate at a `Split` state. -/
theorem eps_src_split {st : List State} {a b : Nat}
    (hconds : ∀ s, s ∈ st → cond_ok s = true) (h : epsStep st a b) :
    ∃ o1 o2, st.get? a = Option.some (State.Split o1 o2) ∧
      (o1 = Edge.Id b ∨ o2 = Edge.Id b) := by
  unfold epsStep epsStepB at h
  cases hst : st.get? a with
  | none => rw [hst] at h; cases h
  | some s =>
    rw [hst] at h
    cases s with
    | State c o =>
      cases c with
      | None =>
        have := hconds _ (List.get?_mem hst)
        simp [cond_ok] at this
      | One c2 => simp at h
      | Any => simp at h
      | Class cs => simp at h
    | Split o1 o2 =>
      simp at h
      exact ⟨o1, o2, rfl, h⟩

theorem has_end_split {o1 o2 : Edge} (h : has_end (State.Split o1 o2) = true) :
    o1 = Edge.End ∨ o2 = Edge.End := by
  cases o1 <;> cases o2 <;> simp_all [has_end]

theorem epsStep_src_lt {st : List State} {a b : Nat} (h : epsStep st a b) :
    a < st.length := by
  unfold epsStep epsStepB at h
  cases hst : st.get? a with
  | none => rw [hst] at h; cases h
  | some s =>
    obtain ⟨hlt, _⟩ := List.get?_eq_some.mp hst
    exact hlt

/-- On a compiled automaton, every purely-epsilon cycle passes through a
`Split` owning an edge that leaves the cycle (an `Accept` edge or a link to
a state outside the cycle). -/
theorem built_cycle_exit {nfa : NFA} (hinv : BuiltInv nfa) :
    ∀ (a : Nat) (rest : List Nat),
      List.Chain (epsStep nfa.states) a (rest ++ [a]) →
      ∃ d, d ∈ a :: rest ∧ ∃ o1 o2,
        nfa.states.get? d = Option.some (State.Split o1 o2) ∧
        ((o1 = Edge.End ∨ ∃ t, o1 = Edge.Id t ∧ ¬ t ∈ a :: rest) ∨
         (o2 = Edge.End ∨ ∃ t, o2 = Edge.Id t ∧ ¬ t ∈ a :: rest)) := by
  intro a rest hchain
  have hnext := cycle_mem_next hchain
  have halt : a < nfa.states.length := by
    obtain ⟨y, _, hry⟩ := hnext a (List.mem_cons_self a rest)
    exact epsStep_src_lt hry
  obtain ⟨m, sEnd, hreach, hgsE, hendE⟩ := hinv.end_reach a halt
  have main : ∀ x, Reach nfa.states x m → x ∈ a :: rest →
      ∃ d, d ∈ a :: rest ∧ ∃ o1 o2,
        nfa.states.get? d = Option.some (State.Split o1 o2) ∧
        ((o1 = Edge.End ∨ ∃ t, o1 = Edge.Id t ∧ ¬ t ∈ a :: rest) ∨
         (o2 = Edge.End ∨ ∃ t, o2 = Edge.Id t ∧ ¬ t ∈ a :: rest)) := by
    intro x hr hxC
    induction hr using Relation.ReflTransGen.head_induction_on with
    | refl =>
      obtain ⟨y, hyC, hxy⟩ := hnext m hxC
      obtain ⟨o1, o2, hgs2, _⟩ := eps_src_split hinv.conds hxy
      have hsEnd : sEnd = State.Split o1 o2 := by
        rw [hgsE] at hgs2
        injection hgs2
      have hendsplit : o1 = Edge.End ∨ o2 = Edge.End :=
        has_end_split (by rw [← hsEnd]; exact hendE)
      refine ⟨m, hxC, o1, o2, hgs2, ?_⟩
      cases hendsplit with
      | inl h2 => exact Or.inl (Or.inl h2)
      | inr h2 => exact Or.inr (Or.inl h2)
    | head hstep htail ih =>
      rename_i x2 y
      by_cases hyC : y ∈ a :: rest
      · exact ih hyC
      · obtain ⟨z, hzC, hxz⟩ := hnext x2 hxC
        obtain ⟨o1, o2, hgs2, _⟩ := eps_src_split hinv.conds hxz
        have hstep2 := (step_split_iff hgs2).mp hstep
        refine ⟨x2, hxC, o1, o2, hgs2, ?_⟩
        cases hstep2 with
        | inl h2 => exact Or.inl (Or.inr ⟨y, h2, hyC⟩)
        | inr h2 => exact Or.inr (Or.inr ⟨y, h2, hyC⟩)
  exact main a hreach (List.mem_cons_self a rest)

/-! ### Claim theorems -/

/-- C1 (counterexample): the claim "the priority computation terminates on
every automaton built by `from_expr`" is false as stated: compiling the tree
`ZeroOrMore (ZeroOrMore (Single 'a'))` (the regex `(a*)*`) produces the
automaton `nfaZZ` whose state 2 is one of its own states, yet the priority
computation of that state exhausts every fuel bound, i.e. the unguarded Rust
recursion diverges on it. -/
theorem c1_counterexample :
    from_expr (Expr.ZeroOrMore (Expr.ZeroOrMore (Expr.Single 'a'))) = Res.ok nfaZZ ∧
    State.Split (Edge.Id 1) Edge.End ∈ nfaZZ.states ∧
    ¬ ∃ f v, get_priority_keyF nfaZZ f (State.Split (Edge.Id 1) Edge.End) = Res.ok v := by
  refine ⟨from_expr_exprZZ, by decide, ?_⟩
  rintro ⟨f, v, hv⟩
  rw [gpk_split, (zz_fuelOut f).1] at hv
  cases hv

/-- C1 (amended): for every syntax tree whose compiled automaton has no
purely-epsilon cycle, the priority computation terminates with a value on
every state of the automaton, even though the recursion keeps no visited
set.  (The counterexample shows the epsilon-acyclicity restriction is
necessary: nested repetition compiles to an epsilon cycle on which the
recursion diverges.) -/
theorem c1_priority_terminates (expr : Expr) (nfa : NFA)
    (hbuilt : from_expr expr = Res.ok nfa)
    (hacyc : ∀ a, ¬ Relation.TransGen (epsStep nfa.states) a a) :
    ∀ s, s ∈ nfa.states → ∃ f v, get_priority_keyF nfa f s = Res.ok v := by
  intro s hmem
  exact priority_terminates nfa (from_expr_inv expr nfa hbuilt).ok hacyc s hmem

/-- C1 (witness): the amended theorem applied to the automaton of `'a'`. -/
theorem c1_witness :
    ∃ f v, get_priority_keyF nfaA f (State.State (ConditionChar.One 97) Edge.End) =
      Res.ok v :=
  c1_priority_terminates (Expr.Single 'a') nfaA from_expr_single_a nfaA_acyclic
    (State.State (ConditionChar.One 97) Edge.End) (by decide)

/-- C2 (counterexample): the conjunct "every structural loop contains at
least one consuming Match state" is false: in the automaton compiled from
`ZeroOrMore (ZeroOrMore (Single 'a'))`, states 1 and 2 step to each other
(a structural loop), and both are `Split` (Branch) states, not `Match`
states. -/
theorem c2_counterexample :
    from_expr (Expr.ZeroOrMore (Expr.ZeroOrMore (Expr.Single 'a'))) = Res.ok nfaZZ ∧
    Step nfaZZ.states 1 2 ∧ Step nfaZZ.states 2 1 ∧
    nfaZZ.states.get? 1 = Option.some (State.Split (Edge.Id 0) (Edge.Id 2)) ∧
    nfaZZ.states.get? 2 = Option.some (State.Split (Edge.Id 1) Edge.End) := by
  refine ⟨from_expr_exprZZ, by decide, by decide, by decide, by decide⟩

/-- C2 (amended): in every automaton built by `from_expr`, every
purely-epsilon cycle (a nonempty chain of states each linked to the next
through `Split` successors, wrapping around) passes through a Branch with an
alternative leading out of the cycle (an `Accept` edge or a link to a state
outside the cycle).  The original claim's second conjunct — that every
structural loop contains a consuming Match state — is refuted by the
counterexample. -/
theorem c2_eps_cycle_exit (expr : Expr) (nfa : NFA)
    (hbuilt : from_expr expr = Res.ok nfa) :
    ∀ (a : Nat) (rest : List Nat),
      List.Chain (epsStep nfa.states) a (rest ++ [a]) →
      ∃ d, d ∈ a :: rest ∧ ∃ o1 o2,
        nfa.states.get? d = Option.some (State.Split o1 o2) ∧
        ((o1 = Edge.End ∨ ∃ t, o1 = Edge.Id t ∧ ¬ t ∈ a :: rest) ∨
         (o2 = Edge.End ∨ ∃ t, o2 = Edge.Id t ∧ ¬ t ∈ a :: rest)) :=
  built_cycle_exit (from_expr_inv expr nfa hbuilt)

/-- C2 (witness): the amended theorem applied to the epsilon cycle `1 → 2 →
1` of the automaton of `(a*)*`. -/
theorem c2_witness :
    ∃ d, d ∈ (1 : Nat) :: [2] ∧ ∃ o1 o2,
      nfaZZ.states.get? d = Option.some (State.Split o1 o2) ∧
      ((o1 = Edge.End ∨ ∃ t, o1 = Edge.Id t ∧ ¬ t ∈ (1 : Nat) :: [2]) ∨
       (o2 = Edge.End ∨ ∃ t, o2 = Edge.Id t ∧ ¬ t ∈ (1 : Nat) :: [2])) :=
  c2_eps_cycle_exit (Expr.ZeroOrMore (Expr.ZeroOrMore (Expr.Single 'a'))) nfaZZ
    from_expr_exprZZ 1 [2]
    (List.Chain.cons (by decide) (List.Chain.cons (by decide) List.Chain.nil))

/-- C3: every automaton returned by `from_expr` contains zero `Open`
(`Edge.Detached`) transitions in any of its states. -/
theorem c3_no_open (expr : Expr) (nfa : NFA)
    (hbuilt : from_expr expr = Res.ok nfa) :
    ∀ s, s ∈ nfa.states → has_detached s = false :=
  (from_expr_inv expr nfa hbuilt).no_open

/-- C3 (witness): applied to the automaton of `'a'`. -/
theorem c3_witness :
    has_detached (State.State (ConditionChar.One 97) Edge.End) = false :=
  c3_no_open (Expr.Single 'a') nfaA from_expr_single_a
    (State.State (ConditionChar.One 97) Edge.End) (by decide)

/-- C4: for every state, fuel and automaton, `get_priority_key` agrees with
the reference priority definition transcribed from the specification: `One
c` is the byte value of `c` regardless of successor, `Any` and `Class` are
`0` regardless of contents, a `None` condition resolves `Linked(target)` to
the target's own priority and `Open`/`Accept` to the maximum representable
value, and a Branch takes the minimum of its two successors resolved as
`None`-conditioned transitions. -/
theorem c4_priority_reference (nfa : NFA) (f : Nat) (s : State) :
    get_priority_keyF nfa f s = priorityRef nfa f s :=
  gpk_eq_priorityRef nfa f s

/-- C5: compiling `Sequence(a, b)` builds `a`'s fragment, then `b`'s
fragment, replaces every `Open` exit of `a`'s region (all of which are
reachable from `a`'s entry) with `Linked(b's entry)`, leaves everything
outside `a`'s region — in particular all of `b`'s states, which retain an
`Open` exit — unchanged, and returns `a`'s entry index as the sequence's
entry. -/
theorem c5_sequence (a b : Expr) (st0 st1 st2 : List State) (ia ib : Nat)
    (hok : arena_ok st0 = true)
    (hba : build_expr st0 a = Res.ok (ia, st1))
    (hbb : build_expr st1 b = Res.ok (ib, st2)) :
    ∃ st3, build_expr st0 (Expr.Sequence a b) = Res.ok (ia, st3) ∧
      (∀ k, st0.length ≤ k → k < st1.length →
        st3.get? k = (st1.get? k).map (patch_state (Edge.Id ib))) ∧
      (∀ k, k < st0.length → st3.get? k = st0.get? k) ∧
      (∀ k, st1.length ≤ k → st3.get? k = st2.get? k) ∧
      (∃ m s, st1.length ≤ m ∧ st3.get? m = Option.some s ∧
        has_detached s = true) := by
  have hga : good_chars a = true := by
    by_contra hc
    have : good_chars a = false := by revert hc; cases good_chars a <;> simp
    rw [(build_spec a st0 hok).2 this] at hba
    cases hba
  obtain ⟨ia2, st12, hba2, hfA, hokA⟩ := (build_spec a st0 hok).1 hga
  have heqa := hba2.symm.trans hba
  injection heqa with heqa
  injection heqa with heqa1 heqa2
  rw [heqa1] at hfA
  rw [heqa2] at hfA hokA
  have hgb : good_chars b = true := by
    by_contra hc
    have : good_chars b = false := by revert hc; cases good_chars b <;> simp
    rw [(build_spec b st1 hokA).2 this] at hbb
    cases hbb
  obtain ⟨ib2, st22, hbb2, hfB, hokB⟩ := (build_spec b st1 hokA).1 hgb
  have heqb := hbb2.symm.trans hbb
  injection heqb with heqb
  injection heqb with heqb1 heqb2
  rw [heqb1] at hfB
  rw [heqb2] at hfB hokB
  obtain ⟨st3, hrun, _, hfrag3, _, huntouched, hpatched⟩ := frag_seq hfA hfB hokB
  refine ⟨st3, ?_, hpatched, ?_, huntouched, ?_⟩
  · rw [build_sequence_eq, hba]
    simp only [Res.bind]
    rw [hbb]
    simp only [Res.bind]
    rw [hrun]
  · intro k hk
    obtain ⟨L, hL⟩ := hfrag3.prefix_eq
    rw [hL]
    exact get?_append_left hk
  · obtain ⟨m, s, hm, hgs, hd⟩ := hfB.exit_reach ib hfB.id_lo hfB.id_hi
    have hmr := region_reach hfB.region hfB.id_lo hfB.id_hi hm
    refine ⟨m, s, hmr.1, ?_, hd⟩
    rw [huntouched m hmr.1]
    exact hgs

/-- C5 (witness): the theorem applied to `Sequence (Single 'a') (Single
'b')` on the empty arena. -/
theorem c5_witness :
    ∃ st3, build_expr []
        (Expr.Sequence (Expr.Single 'a') (Expr.Single 'b')) = Res.ok (0, st3) ∧
      (∀ k, ([] : List State).length ≤ k →
        k < [State.State (ConditionChar.One 97) Edge.Detached].length →
        st3.get? k = ([State.State (ConditionChar.One 97) Edge.Detached].get? k).map
          (patch_state (Edge.Id 1))) ∧
      (∀ k, k < ([] : List State).length → st3.get? k = ([] : List State).get? k) ∧
      (∀ k, [State.State (ConditionChar.One 97) Edge.Detached].length ≤ k →
        st3.get? k = ([State.State (ConditionChar.One 97) Edge.Detached,
          State.State (ConditionChar.One 98) Edge.Detached].get? k)) ∧
      (∃ m s, [State.State (ConditionChar.One 97) Edge.Detached].length ≤ m ∧
        st3.get? m = Option.some s ∧ has_detached s = true) :=
  c5_sequence (Expr.Single 'a') (Expr.Single 'b') []
    [State.State (ConditionChar.One 97) Edge.Detached]
    [State.State (ConditionChar.One 97) Edge.Detached,
     State.State (ConditionChar.One 98) Edge.Detached] 0 1
    (by decide) (by decide) (by decide)

/-- C6: on a well-formed arena (every `Linked` edge and the target edge in
range) and a valid entry index, one patching pass of `update_outputs`
terminates with a result — including on self-referential graphs, thanks to
the visited list seeded with the entry index — and the result replaces
exactly the `Open` transitions of states reachable from the entry with the
target edge (`patch_state`), leaving every state not reachable from the
entry, and every `Linked` and `Accept` transition of the patched states,
unchanged. -/
theorem c6_update_outputs (st : List State) (i : Nat) (e : Edge)
    (hok : arena_ok st = true) (he : edge_ok st.length e = true)
    (hi : i < st.length) :
    ∃ st2, update_outputs st i e = Res.ok st2 ∧ st2.length = st.length ∧
      (∀ k, Reach st i k → st2.get? k = (st.get? k).map (patch_state e)) ∧
      (∀ k, ¬ Reach st i k → st2.get? k = st.get? k) ∧
      (∀ t, patch_edge e (Edge.Id t) = Edge.Id t) ∧
      patch_edge e Edge.End = Edge.End ∧
      patch_edge e Edge.Detached = e := by
  obtain ⟨st2, hrun, hlen, hpos, hneg⟩ := update_outputs_spec st i e hok he hi
  exact ⟨st2, hrun, hlen, hpos, hneg, fun t => rfl, rfl, rfl⟩

/-- C6 (witness): one pass over the self-referential arena of `a+` before
its final patch: state 0 links to the `Split` 1, which loops back to 0. -/
theorem c6_witness :
    ∃ st2, update_outputs
        [State.State (ConditionChar.One 97) (Edge.Id 1),
         State.Split (Edge.Id 0) Edge.Detached] 1 Edge.End = Res.ok st2 ∧
      st2.length = [State.State (ConditionChar.One 97) (Edge.Id 1),
         State.Split (Edge.Id 0) Edge.Detached].length ∧
      (∀ k, Reach [State.State (ConditionChar.One 97) (Edge.Id 1),
          State.Split (Edge.Id 0) Edge.Detached] 1 k →
        st2.get? k = ([State.State (ConditionChar.One 97) (Edge.Id 1),
          State.Split (Edge.Id 0) Edge.Detached].get? k).map (patch_state Edge.End)) ∧
      (∀ k, ¬ Reach [State.State (ConditionChar.One 97) (Edge.Id 1),
          State.Split (Edge.Id 0) Edge.Detached] 1 k →
        st2.get? k = [State.State (ConditionChar.One 97) (Edge.Id 1),
          State.Split (Edge.Id 0) Edge.Detached].get? k) ∧
      (∀ t, patch_edge Edge.End (Edge.Id t) = Edge.Id t) ∧
      patch_edge Edge.End Edge.End = Edge.End ∧
      patch_edge Edge.End Edge.Detached = Edge.End :=
  c6_update_outputs
    [State.State (ConditionChar.One 97) (Edge.Id 1),
     State.Split (Edge.Id 0) Edge.Detached] 1 Edge.End
    (by decide) (by decide) (by decide)

/-- C7: compiling `ZeroOrMore (Single 'a')` (the regex `a*`) yields exactly
the two-state arena `[Match(One 'a', Linked 1), Branch(Linked 0, Accept)]`
with start index 1. -/
theorem c7_zero_or_more_single :
    from_expr (Expr.ZeroOrMore (Expr.Single 'a')) =
      Res.ok { start := 1,
               states := [State.State (ConditionChar.One 97) (Edge.Id 1),
                          State.Split (Edge.Id 0) Edge.End] } := by decide

/-- C8: `get_state` returns `none` exactly on out-of-range indices,
`get_start` returns `none` exactly when the start index is out of range,
and an in-range query returns a copy of the stored state; both queries are
total. -/
theorem c8_queries_total (nfa : NFA) (i : Nat) :
    (nfa.get_state i = Option.none ↔ nfa.num_states ≤ i) ∧
    (∀ h : i < nfa.num_states,
      nfa.get_state i = Option.some (nfa.states.get ⟨i, h⟩)) ∧
    (nfa.get_start = Option.none ↔ nfa.num_states ≤ nfa.start) := by
  refine ⟨?_, ?_, ?_⟩
  · unfold NFA.get_state NFA.num_states
    by_cases h : nfa.states.length ≤ i
    · simp [h]
    · rw [if_neg h, List.get?_eq_get (by omega)]
      simp
      omega
  · intro h
    unfold NFA.get_state
    rw [if_neg (by unfold NFA.num_states at h; omega), List.get?_eq_get h]
  · unfold NFA.get_start NFA.num_states
    by_cases h : nfa.states.length ≤ nfa.start
    · simp [h]
    · rw [if_neg h, List.get?_eq_get (by omega)]
      simp
      omega

/-- C8 (witness): on a one-state automaton, index 3 is absent and index 0
returns the stored state. -/
theorem c8_witness :
    NFA.get_state (NFA.from_states [State.State ConditionChar.Any Edge.End]) 3 =
      Option.none ∧
    NFA.get_state (NFA.from_states [State.State ConditionChar.Any Edge.End]) 0 =
      Option.some (State.State ConditionChar.Any Edge.End) := by
  constructor
  · exact (c8_queries_total (NFA.from_states [State.State ConditionChar.Any Edge.End]) 3).1.mpr
      (by decide)
  · have h := (c8_queries_total (NFA.from_states [State.State ConditionChar.Any Edge.End]) 0).2.1
      (by decide)
    exact h.trans (by decide)

/-- C9: construction panics exactly when some `Single` or `Class` character
of the tree does not encode as one UTF-8 byte; when every such character is
single-byte, construction returns an automaton. -/
theorem c9_single_byte (expr : Expr) :
    (good_chars expr = true → ∃ nfa, from_expr expr = Res.ok nfa) ∧
    (good_chars expr = false → from_expr expr = Res.panicked) := by
  constructor
  · intro hgood
    obtain ⟨id, st, hb, hf, hok⟩ := (build_spec expr [] rfl).1 hgood
    obtain ⟨st2, hrun, _, _, _⟩ :=
      update_outputs_spec st id Edge.End hok rfl hf.id_hi
    refine ⟨{ start := id, states := st2 }, ?_⟩
    rw [from_expr_eq, hb]
    simp only [Res.bind]
    rw [hrun]
  · intro hbad
    rw [from_expr_eq, (build_spec expr [] rfl).2 hbad]
    rfl

/-- C9 (witness): `'a'` builds, `'é'` (two UTF-8 bytes) panics. -/
theorem c9_witness :
    (∃ nfa, from_expr (Expr.Single 'a') = Res.ok nfa) ∧
    from_expr (Expr.Single 'é') = Res.panicked :=
  ⟨(c9_single_byte (Expr.Single 'a')).1 (by decide),
   (c9_single_byte (Expr.Single 'é')).2 (by decide)⟩

/-- C10: resolving a `None`-conditioned `Linked` transition whose index is
out of range of the arena panics (the `unwrap` of `get_state` fails); under
the precondition that the edge's target and every epsilon-reachable index
from it are in range, the computation never panics (and a transition with a
real condition never panics at all). -/
theorem c10_panic_boundary :
    (∀ (nfa : NFA) (f id : Nat), nfa.num_states ≤ id →
      get_transition_priority_keyF nfa (f + 1) ConditionChar.None (Edge.Id id) =
        Res.panicked) ∧
    (∀ (nfa : NFA) (o : Edge), edge_safe nfa o → ∀ f,
      get_transition_priority_keyF nfa f ConditionChar.None o ≠ Res.panicked) := by
  constructor
  · intro nfa f id hid
    have hnone : nfa.get_state id = Option.none := by
      have hid2 : nfa.states.length ≤ id := hid
      unfold NFA.get_state
      rw [if_pos hid2]
    rw [tpk_none_id_succ, hnone]
  · intro nfa o hsafe f
    exact tpk_no_panic nfa f o hsafe

/-- C10 (witness): the out-of-range panic on the empty automaton, and
absence of panic on an `Accept` edge. -/
theorem c10_witness :
    get_transition_priority_keyF (NFA.from_states []) 1 ConditionChar.None
      (Edge.Id 0) = Res.panicked ∧
    get_transition_priority_keyF nfaA 5 ConditionChar.None Edge.End ≠
      Res.panicked :=
  ⟨c10_panic_boundary.1 (NFA.from_states []) 0 0 (by decide),
   c10_panic_boundary.2 nfaA Edge.End (fun id h => Edge.noConfusion h) 5⟩

end RegexNfa

